import Mathlib

/-!
# Base-repository resolution (`internal/glrepo/resolver.go`)

A shallow embedding of `ResolveRemotesToRepos`, `resolveNetwork`,
`ResolvedRemotes.BaseRepo`, `ResolvedRemotes.HeadRepos` and
`ResolvedRemotes.RemoteForRepo`.

Side effects (the platform API, the interactive chooser and the git config
store) are modelled by explicit state passing: every external call is appended
to a log of `Call`s, and the answer of the outside world is given by a `World`
whose answers may depend on the whole log so far, so that two calls with the
same arguments may be answered differently.

A Go run that dereferences a nil pointer or indexes a slice out of range is the
outcome `Outcome.crash`.
-/

namespace Glrepo

/-! ## Data model -/

/-- Go `error` values that are not nil. -/
abbrev Err := String

/-- Modelled from the spec: the Repository Reference value type
`{host, owner, name}` (the concrete type behind `NewWithHost`, declared in a file
of the package that is not part of the sources at hand). -/
structure Repo where
  host : String
  owner : String
  name : String
deriving DecidableEq, Repr

/-- Modelled from the spec: the Remote Identity value type
`{name, host, owner, project, resolved}` (`Remote`, declared in a file of the
package that is not part of the sources at hand). `Name` and `Resolved` are the
fields the resolver reads; host, owner and project are kept in `Repo`. -/
structure Remote where
  Name : String
  Resolved : String
  Repo : Repo
deriving DecidableEq, Repr

/-- The Go interface `Interface`: a non-nil value is either a remote (a `*Remote`
returned as such) or a plain repository reference. The nil interface is `none`
of `Option Interface`. -/
inductive Interface where
  | remote (r : Remote)
  | repo (r : Repo)
deriving DecidableEq, Repr

/-- Method `RepoOwner` of `Interface`. -/
def Interface.RepoOwner : Interface → String
  | .remote r => r.Repo.owner
  | .repo r => r.owner

/-- Method `RepoName` of `Interface`. -/
def Interface.RepoName : Interface → String
  | .remote r => r.Repo.name
  | .repo r => r.name

/-- Method `RepoHost` of `Interface`. -/
def Interface.RepoHost : Interface → String
  | .remote r => r.Repo.host
  | .repo r => r.host

/-- Method `RepoHost` of a remote. -/
def Remote.RepoHost (r : Remote) : String := r.Repo.host

/-- `NewWithHost(owner, name, host)`: the reference with these three fields. -/
def NewWithHost (owner name host : String) : Interface :=
  .repo { host := host, owner := owner, name := name }

/-- The fork parent of a project record (`ForkedFromProject`), of which the
resolver reads `PathWithNamespace`. -/
structure ForkParent where
  PathWithNamespace : String
deriving DecidableEq, Repr

/-- The fields of the platform project record `gitlab.Project` the resolver
reads. -/
structure Project where
  PathWithNamespace : String
  HTTPURLToRepo : String
  ForkedFromProject : Option ForkParent
deriving DecidableEq, Repr

/-- `maxRemotesForLookup`: the cap on the number of git remotes looked up. -/
def maxRemotesForLookup : Nat := 5

/-- The functions of package `glrepo` that the resolver calls and that are
declared outside `resolver.go`; the resolver is verified for every choice of
them.

* `FromFullName s` is `(Interface, error)` in Go: a reference or an error.
* `FullNameFromURL u` is `(string, error)` in Go; the resolver discards the
  error and uses the string.
* `IsSame a b` compares two non-nil references.
* `FullName r` is the method `FullName` of a remote.
* `Less a b` is the order `sort.Stable` sorts the remotes by. -/
structure Lib where
  FromFullName : String → Except Err Interface
  FullNameFromURL : String → String × Option Err
  IsSame : Interface → Interface → Bool
  FullName : Remote → String
  Less : Remote → Remote → Bool

/-- One call to an external collaborator. -/
inductive Call where
  | getProject (fullName : String)
  | askOne (options : List String)
  | setRemoteResolution (name tag : String)
deriving DecidableEq, Repr

/-- The outside world: the answer to each external call, given the log of the
calls made before it. `GetProject` answers with a record or an error,
`AskOne` with the chosen string or an error, `SetRemoteResolution` with
`none` (success) or an error. -/
structure World where
  GetProject : List Call → String → Except Err Project
  AskOne : List Call → List String → Except Err String
  SetRemoteResolution : List Call → String → String → Option Err

/-- The struct `ResolvedRemotes` (the API client handle is part of `World`).
`network = none` is the nil slice. -/
structure ResolvedRemotes where
  baseOverride : Option Interface
  remotes : List Remote
  network : Option (List Project)
deriving DecidableEq, Repr

/-- The mutable state of a run: the `ResolvedRemotes` instance and the log of the
external calls made so far. -/
structure St where
  rr : ResolvedRemotes
  log : List Call
deriving DecidableEq, Repr

/-- What a call of `BaseRepo` produces: the returned pair `(Interface, error)`, or
a run-time panic. -/
inductive Outcome where
  | ret (v : Option Interface) (e : Option Err)
  | crash
deriving DecidableEq, Repr

/-! ## Strings -/

/-- `strings.HasPrefix`. -/
def HasPrefix (s p : String) : Bool := p.toList.isPrefixOf s.toList

/-- `strings.TrimPrefix`. -/
def TrimPrefix (s p : String) : String :=
  if HasPrefix s p then String.mk (s.toList.drop p.length) else s

/-! ## `ResolveRemotesToRepos` -/

/-- `sort.Stable(remotes)`: a stable sort by `Less` (insertion of each element
before the first one that is not smaller than it). -/
def sortStable (L : Lib) (remotes : List Remote) : List Remote :=
  remotes.insertionSort (fun a b => L.Less b a = false)

/-- `ResolveRemotesToRepos(remotes, client, base)`. -/
def ResolveRemotesToRepos (L : Lib) (remotes : List Remote) (base : String) :
    ResolvedRemotes × Option Err :=
  let result : ResolvedRemotes :=
    { baseOverride := none, remotes := sortStable L remotes, network := none }
  if base ≠ "" then
    match L.FromFullName base with
    | .error err => (result, some err)
    | .ok baseOverride => ({ result with baseOverride := some baseOverride }, none)
  else
    (result, none)

/-! ## `resolveNetwork` -/

/-- `append(result.network, p)` on a possibly nil slice. -/
def appendNetwork (network : Option (List Project)) (p : Project) : Option (List Project) :=
  some (network.getD [] ++ [p])

/-- One iteration of the loop of `resolveNetwork` for the remote `r`, without the
test that ends the iteration. -/
def resolveNetworkStep (L : Lib) (W : World) (r : Remote) (s : St) : St :=
  let fullName := L.FullName r
  let log := s.log ++ [Call.getProject fullName]
  match W.GetProject s.log fullName with
  | .ok networkResult =>
      { rr := { s.rr with network := appendNetwork s.rr.network networkResult }, log := log }
  | .error _ => { s with log := log }

/-- The loop of `resolveNetwork` over the remotes still to visit; `n` is
`len(result.remotes)`. -/
def resolveNetworkLoop (L : Lib) (W : World) (n : Nat) : List Remote → St → St
  | [], s => s
  | r :: rest, s =>
      let s1 := resolveNetworkStep L W r s
      if n = maxRemotesForLookup then s1 else resolveNetworkLoop L W n rest s1

/-- `resolveNetwork(result)`; the returned error is always nil. -/
def resolveNetwork (L : Lib) (W : World) (s : St) : St × Option Err :=
  (resolveNetworkLoop L W s.rr.remotes.length s.rr.remotes s, none)

/-! ## `RemoteForRepo` -/

/-- The loop of `RemoteForRepo` on a non-nil reference. -/
def findRemote (L : Lib) (repo : Interface) : List Remote → Option Remote
  | [] => none
  | remote :: rest =>
      if L.IsSame (.remote remote) repo then some remote else findRemote L repo rest

/-- `r.RemoteForRepo(repo)` on a non-nil reference. -/
def RemoteForRepo (L : Lib) (r : ResolvedRemotes) (repo : Interface) :
    Option Remote × Option Err :=
  match findRemote L repo r.remotes with
  | some remote => (some remote, none)
  | none => (none, some "not found")

/-! ## The memoized network -/

/-- The block `if r.network == nil { resolveNetwork(r) }` shared by `BaseRepo` and
`HeadRepos` (the error of `resolveNetwork` is always nil). -/
def ensureNetwork (L : Lib) (W : World) (s : St) : St :=
  if s.rr.network = none then (resolveNetwork L W s).1 else s

/-! ## `HeadRepos` -/

/-- The loop of `HeadRepos`. The loop variable `repo` of the `for ... range` is one
variable for the whole loop (the language of this code is Go before 1.22; the
comment on `localCopy` in `BaseRepo` describes the same: the value behind the
address of a loop variable is overwritten in the next iteration). Every
iteration assigns the next record to `repo` and appends `&repo`. The loop state
is the number of pointers appended so far and the current value of `repo`. -/
def headLoop : List Project → Nat × Option Project → Nat × Option Project
  | [], st => st
  | p :: rest, st => headLoop rest (st.1 + 1, some p)

/-- `r.HeadRepos()`: the state afterwards, the records the returned pointers refer
to (all of them point to the loop variable, which holds the last record), and
the returned error, which is nil. -/
def HeadRepos (L : Lib) (W : World) (s : St) : St × List Project × Option Err :=
  let s1 := ensureNetwork L W s
  let st := headLoop (s1.rr.network.getD []) (0, none)
  (s1,
    (match st.2 with
     | some repo => List.replicate st.1 repo
     | none => []),
    none)

/-! ## `BaseRepo` -/

/-- The body of the loop of `BaseRepo` over the remotes, for the remote `r`:
`none` when the body ends without a return, so that the loop goes on. The
result of `git.SetRemoteResolution` in the legacy branch is discarded by the
code, so only the call is recorded. -/
def cachedStep (L : Lib) (r : Remote) (s : St) : Option (St × Outcome) :=
  if r.Resolved = "base" then
    some (s, .ret (some (.remote r)) none)
  else if HasPrefix r.Resolved "base:" then
    match L.FromFullName (TrimPrefix r.Resolved "base:") with
    | .error err => some (s, .ret none (some err))
    | .ok repo => some (s, .ret (some (NewWithHost repo.RepoOwner repo.RepoName r.RepoHost)) none)
  else if r.Resolved ≠ "" && !HasPrefix r.Resolved "head:" then
    match L.FromFullName r.Resolved with
    | .error err => some (s, .ret none (some err))
    | .ok repo =>
        some ({ s with log := s.log ++ [Call.setRemoteResolution r.Name ("base:" ++ r.Resolved)] },
          .ret (some (NewWithHost repo.RepoOwner repo.RepoName r.RepoHost)) none)
  else
    none

/-- The loop of `BaseRepo` over the remotes and their persisted resolutions:
`none` when the loop ends without a return. -/
def cachedLoop (L : Lib) : List Remote → St → Option (St × Outcome)
  | [], _ => none
  | r :: rest, s =>
      match cachedStep L r s with
      | some res => some res
      | none => cachedLoop L rest s

/-- The candidates collected by the closure `add`: the names in discovery order
and the map from name to (a copy of) the record. -/
structure Cands where
  repoNames : List String
  repoMap : List (String × Project)
deriving DecidableEq, Repr

/-- The closure `add` of `BaseRepo` on a non-nil record. -/
def add (L : Lib) (c : Cands) (r : Project) : Cands :=
  let fn := (L.FullNameFromURL r.HTTPURLToRepo).1
  if (c.repoMap.lookup fn).isSome then c
  else { repoNames := c.repoNames ++ [fn], repoMap := c.repoMap ++ [(fn, r)] }

/-- The loop of `BaseRepo` over `r.network`. The error of the fork parent's
`GetProject` is discarded and the (then nil) record is handed to `add`, which
dereferences it: `none` is that crash. -/
def candLoop (L : Lib) (W : World) : List Project → List Call → Cands → List Call × Option Cands
  | [], log, c => (log, some c)
  | p :: rest, log, c =>
      match p.ForkedFromProject with
      | some parent =>
          let log1 := log ++ [Call.getProject parent.PathWithNamespace]
          match W.GetProject log parent.PathWithNamespace with
          | .ok fProject => candLoop L W rest log1 (add L (add L c fProject) p)
          | .error _ => (log1, none)
      | none => candLoop L W rest log (add L c p)

/-- The candidates of `BaseRepo`: the loop over `r.network`, started with no
name and an empty map, and the log after it. -/
def candidates (L : Lib) (W : World) (s : St) : List Call × Option Cands :=
  candLoop L W (s.rr.network.getD []) s.log { repoNames := [], repoMap := [] }

/-- The end of `BaseRepo`, from `selectedRepo := repoMap[baseName]` on. A name
that is not a key gives a nil record, whose dereference crashes; a clone URL
that `FromFullName` rejects gives a nil reference, with which `RemoteForRepo`
either compares the first remote (`IsSame` reads the fields of a nil
interface) or, without remotes, returns nil so that `r.remotes[0]` is out of
range: a crash both ways. -/
def persistChoice (L : Lib) (W : World) (s : St) (c : Cands) (baseName : String) :
    St × Outcome :=
  match c.repoMap.lookup baseName with
  | none => (s, .crash)
  | some selectedRepo =>
      match L.FromFullName selectedRepo.HTTPURLToRepo with
      | .error _ => (s, .crash)
      | .ok selectedRepoInfo =>
          match (RemoteForRepo L s.rr selectedRepoInfo).1 with
          | some remote =>
              let err := W.SetRemoteResolution s.log remote.Name "base"
              ({ s with log := s.log ++ [Call.setRemoteResolution remote.Name "base"] },
                .ret (some selectedRepoInfo) err)
          | none =>
              match s.rr.remotes with
              | [] => (s, .crash)
              | remote :: _ =>
                  let resolution := "base:" ++ (L.FullNameFromURL selectedRepo.HTTPURLToRepo).1
                  let err := W.SetRemoteResolution s.log remote.Name resolution
                  ({ s with log := s.log ++ [Call.setRemoteResolution remote.Name resolution] },
                    .ret (some selectedRepoInfo) err)

/-- The part of `BaseRepo` after the network is known (from
`var repoNames []string` on). -/
def chooseBase (L : Lib) (W : World) (s : St) : St × Outcome :=
  match candidates L W s with
  | (log, none) => ({ s with log := log }, .crash)
  | (log, some c) =>
      let s1 : St := { s with log := log }
      match c.repoNames with
      | [] =>
          match s1.rr.remotes with
          | [] => (s1, .crash)
          | first :: _ => (s1, .ret (some (.remote first)) none)
      | baseName :: more =>
          if more.length + 1 > 1 then
            let s2 : St := { s1 with log := s1.log ++ [Call.askOne c.repoNames] }
            match W.AskOne s1.log c.repoNames with
            | .error err => (s2, .ret none (some err))
            | .ok chosen => persistChoice L W s2 c chosen
          else
            persistChoice L W s1 c baseName

/-- `r.BaseRepo(prompt)`: the state afterwards and the outcome. -/
def BaseRepo (L : Lib) (W : World) (s : St) (prompt : Bool) : St × Outcome :=
  match s.rr.baseOverride with
  | some baseOverride => (s, .ret (some baseOverride) none)
  | none =>
      match cachedLoop L s.rr.remotes s with
      | some res => res
      | none =>
          if !prompt then
            match s.rr.remotes with
            | [] => (s, .crash)
            | first :: _ => (s, .ret (some (.remote first)) none)
          else
            chooseBase L W (ensureNetwork L W s)

/-- The external calls a run made: the part of the final log after the initial
one. -/
def callsMade (before after : St) : List Call := after.log.drop before.log.length

/-- A persisted resolution that is no cached base resolution: empty, or with the
prefix `head:`. -/
def noCachedBase (tag : String) : Prop := tag = "" ∨ HasPrefix tag "head:" = true

instance (tag : String) : Decidable (noCachedBase tag) := by
  unfold noCachedBase; infer_instance

/-- The remotes `l` with the persisted resolution of the remote `R` replaced by
`tag`. -/
def retag (R : Remote) (tag : String) (l : List Remote) : List Remote :=
  l.map (fun x => if x = R then { x with Resolved := tag } else x)

/-- The external call `GetProject` for the remote `r`. -/
def lookupCall (L : Lib) (r : Remote) : Call := Call.getProject (L.FullName r)

/-- The remotes the loop of `resolveNetwork` processes: the loop is left after the
first remote when there are `maxRemotesForLookup` remotes in all, and runs to the
end otherwise. -/
def processedRemotes (remotes : List Remote) : List Remote :=
  if remotes.length = maxRemotesForLookup then remotes.take 1 else remotes

/-- The records of those of the remotes `processed` whose fetch succeeds, in the
order of the remotes, when they are looked up one after the other starting from
the log `log`: the fetch of a remote is asked of the world after the lookups of
all the remotes before it, whether they succeeded or not. -/
def fetchedRecords (L : Lib) (W : World) (log : List Call) (processed : List Remote) :
    List Project :=
  (processed.inits.zip processed).filterMap (fun br =>
    (W.GetProject (log ++ br.1.map (lookupCall L)) (L.FullName br.2)).toOption)

/-- A network cache extended by the records `ps`: nothing changes (a nil slice
stays nil) when there is none. -/
def extendNetwork (network : Option (List Project)) (ps : List Project) :
    Option (List Project) :=
  if ps = [] then network else some (network.getD [] ++ ps)

/-- The full name of a record: `FullNameFromURL` of its clone URL, the error
discarded. -/
def fullNameOf (L : Lib) (p : Project) : String := (L.FullNameFromURL p.HTTPURLToRepo).1

/-- First-occurrence deduplication: every name is kept where it occurs first and
dropped wherever it occurs again. -/
def dedupFirst : List String → List String
  | [] => []
  | x :: xs => x :: (dedupFirst xs).filter (fun y => y != x)

/-- The records visited for the network records `network`, in order: for each
record its fork parent, fetched from the world, if it declares one, and then the
record itself. `none` when the fetch of a fork parent fails. -/
def visitRecords (W : World) : List Project → List Call → Option (List Project)
  | [], _ => some []
  | p :: rest, log =>
      match p.ForkedFromProject with
      | none => (visitRecords W rest log).map (fun vs => p :: vs)
      | some parent =>
          match W.GetProject log parent.PathWithNamespace with
          | .error _ => none
          | .ok fProject =>
              (visitRecords W rest (log ++ [Call.getProject parent.PathWithNamespace])).map
                (fun vs => fProject :: p :: vs)

/-- The lookups of the fork parents of the records `network`, in order. -/
def parentCalls (network : List Project) : List Call :=
  network.filterMap (fun p =>
    p.ForkedFromProject.map (fun parent => Call.getProject parent.PathWithNamespace))

/-- The names of the candidates are the keys of the map, in the same order. -/
def Cands.Consistent (c : Cands) : Prop := c.repoNames = c.repoMap.map Prod.fst

/-- No call of the list is a call of the interactive chooser. -/
def noAsk (cs : List Call) : Prop := ∀ x ∈ cs, ∀ options, x ≠ Call.askOne options

/-- A call is a call of `git.SetRemoteResolution`. -/
def Call.isSet : Call → Bool
  | .setRemoteResolution _ _ => true
  | _ => false

/-- A call is a call of `api.GetProject`. -/
def Call.isLookup : Call → Bool
  | .getProject _ => true
  | _ => false

/-- The calls of `git.SetRemoteResolution` among the calls `cs`, in order. -/
def setCalls (cs : List Call) : List Call := cs.filter Call.isSet

/-- The calls of `api.GetProject` among the calls `cs`, in order. -/
def lookupCalls (cs : List Call) : List Call := cs.filter Call.isLookup

/-- The candidate `name` is selected in the run of `BaseRepo(true)` from the state
`s` (after the network step) with the candidates `cands`: it is the only name, or
there are several names and the chooser, asked for them, answered `name`. -/
def selected (L : Lib) (W : World) (s : St) (cands : Cands) (name : String) : Prop :=
  cands.repoNames = [name] ∨
    (1 < cands.repoNames.length ∧
      W.AskOne (candidates L W s).1 cands.repoNames = .ok name)

/-! ## Sample data

A concrete library, world and remotes on which the model is evaluated. -/

/-- A sample `FromFullName`: `owner/name` with both parts non-empty, on the host
`gitlab.com`. -/
def sampleFromFullName (s : String) : Except Err Interface :=
  let owner := s.toList.takeWhile (fun c => c != '/')
  match s.toList.dropWhile (fun c => c != '/') with
  | [] => .error "expected the OWNER/REPO format"
  | _ :: name =>
      if owner.isEmpty || name.isEmpty then .error "expected the OWNER/REPO format"
      else .ok (.repo { host := "gitlab.com", owner := String.mk owner, name := String.mk name })

/-- A sample library: clone URLs are full names already, two references are the
same when owner, name and host agree. -/
def sampleLib : Lib where
  FromFullName := sampleFromFullName
  FullNameFromURL := fun u => (u, none)
  IsSame := fun a b =>
    a.RepoOwner == b.RepoOwner && a.RepoName == b.RepoName && a.RepoHost == b.RepoHost
  FullName := fun r => r.Repo.owner ++ "/" ++ r.Repo.name
  Less := fun _ _ => false

/-- A sample record named `owner/name`, with an optional fork parent. -/
def sampleProject (fullName : String) (parent : Option String) : Project :=
  { PathWithNamespace := fullName, HTTPURLToRepo := fullName,
    ForkedFromProject := parent.map ForkParent.mk }

/-- A sample world: every project exists, `me/fork` is a fork of `up/stream`; the
chooser picks the last option; persisting succeeds. -/
def sampleWorld : World where
  GetProject := fun _ fullName =>
    .ok (sampleProject fullName (if fullName = "me/fork" then some "up/stream" else none))
  AskOne := fun _ options =>
    match options.getLast? with
    | some o => .ok o
    | none => .error "no options"
  SetRemoteResolution := fun _ _ _ => none

/-- A sample world in which every external call fails. -/
def failingWorld : World where
  GetProject := fun _ _ => .error "404 Not Found"
  AskOne := fun _ _ => .error "interrupt"
  SetRemoteResolution := fun _ _ _ => some "could not lock config file"

/-- A sample remote `name` pointing to `gitlab.com/owner/project` with the
persisted resolution `resolved`. -/
def sampleRemote (name owner project resolved : String) : Remote :=
  { Name := name, Resolved := resolved,
    Repo := { host := "gitlab.com", owner := owner, name := project } }

/-- A fresh state over the given remotes: no override, nil network, empty log. -/
def freshSt (remotes : List Remote) : St :=
  { rr := { baseOverride := none, remotes := remotes, network := none }, log := [] }

/-- Six sample remotes without persisted resolutions. -/
def sixRemotes : List Remote :=
  [sampleRemote "r1" "o" "p1" "", sampleRemote "r2" "o" "p2" "", sampleRemote "r3" "o" "p3" "",
   sampleRemote "r4" "o" "p4" "", sampleRemote "r5" "o" "p5" "", sampleRemote "r6" "o" "p6" ""]

/-- A sample world like `sampleWorld` in which the lookup of the fork parent
`up/stream` fails. -/
def parentFailsWorld : World where
  GetProject := fun log fullName =>
    if fullName = "up/stream" then .error "404 Not Found"
    else sampleWorld.GetProject log fullName
  AskOne := sampleWorld.AskOne
  SetRemoteResolution := sampleWorld.SetRemoteResolution

/-- Five sample remotes without persisted resolutions. -/
def fiveRemotes : List Remote :=
  [sampleRemote "r1" "o" "p1" "", sampleRemote "r2" "o" "p2" "", sampleRemote "r3" "o" "p3" "",
   sampleRemote "r4" "o" "p4" "", sampleRemote "r5" "o" "p5" ""]

/-- A sample remote `origin` for `up/stream` on the host `example.com`, with the
persisted resolution `resolved`. -/
def otherHostRemote (resolved : String) : Remote :=
  { Name := "origin", Resolved := resolved,
    Repo := { host := "example.com", owner := "up", name := "stream" } }

/-! ## String facts -/

theorem hasPrefix_append (p t : String) : HasPrefix (p ++ t) p = true := by
  unfold HasPrefix
  rw [String.toList, String.toList, String.data_append]
  rw [List.isPrefixOf_iff_prefix]
  exact List.prefix_append _ _

theorem trimPrefix_append (p t : String) : TrimPrefix (p ++ t) p = t := by
  unfold TrimPrefix
  rw [if_pos (hasPrefix_append p t)]
  rw [String.toList, String.data_append, String.length, List.drop_left]

theorem base_colon_ne_base (t : String) : "base:" ++ t ≠ "base" := by
  intro h
  have h2 := congrArg String.length h
  rw [String.length_append] at h2
  have h5 : "base:".length = 5 := by decide
  have h4 : "base".length = 4 := by decide
  omega

theorem head_not_base (t : String) (h : HasPrefix t "head:" = true) :
    t ≠ "base" ∧ HasPrefix t "base:" = false := by
  unfold HasPrefix at *
  have e1 : "head:".toList = ['h','e','a','d',':'] := by decide
  have e2 : "base:".toList = ['b','a','s','e',':'] := by decide
  rw [e1] at h
  rw [e2]
  constructor
  · rintro rfl
    revert h; decide
  · cases ht : t.toList with
    | nil => rw [ht] at h; simp at h
    | cons c cs =>
      rw [ht] at h
      simp only [List.isPrefixOf] at h ⊢
      simp at h
      have hc : ('b' == c) = false := by
        rw [← h.1]; decide
      rw [hc, Bool.false_and]

/-! ## The loop over the persisted resolutions -/

theorem cachedStep_noCachedBase (L : Lib) (r : Remote) (s : St)
    (h : noCachedBase r.Resolved) : cachedStep L r s = none := by
  unfold cachedStep
  rcases h with h | h
  · rw [h]
    have h1 : ("" : String) ≠ "base" := by decide
    have h2 : HasPrefix "" "base:" = false := by decide
    simp [h1, h2]
  · obtain ⟨h1, h2⟩ := head_not_base _ h
    simp [h1, h2, h]

theorem cachedLoop_noCachedBase (L : Lib) (s : St) (l : List Remote)
    (h : ∀ x ∈ l, noCachedBase x.Resolved) : cachedLoop L l s = none := by
  induction l with
  | nil => rfl
  | cons r rest ih =>
    simp only [cachedLoop]
    rw [cachedStep_noCachedBase L r s (h r (List.mem_cons_self _ _))]
    exact ih (fun x hx => h x (List.mem_cons_of_mem _ hx))

/-- The loop is decided by the first remote whose resolution is not skipped. -/
theorem cachedLoop_append (L : Lib) (s : St) (pre : List Remote) (r : Remote)
    (post : List Remote) (h : ∀ x ∈ pre, noCachedBase x.Resolved) :
    cachedLoop L (pre ++ r :: post) s = cachedLoop L (r :: post) s := by
  induction pre with
  | nil => rfl
  | cons x pre ih =>
    simp only [List.cons_append, cachedLoop]
    rw [cachedStep_noCachedBase L x s (h x (List.mem_cons_self _ _))]
    exact ih (fun y hy => h y (List.mem_cons_of_mem _ hy))

/-- When `r` is the only remote with a non-empty resolution and the loop body
returns on it, the loop returns that. -/
theorem cachedLoop_only (L : Lib) (s : St) (r : Remote) (res : St × Outcome)
    (l : List Remote) (hmem : r ∈ l) (honly : ∀ x ∈ l, x.Resolved ≠ "" → x = r)
    (hstep : cachedStep L r s = some res) : cachedLoop L l s = some res := by
  induction l with
  | nil => cases hmem
  | cons x rest ih =>
    simp only [cachedLoop]
    by_cases hx : x = r
    · rw [hx, hstep]
    · have hempty : x.Resolved = "" := by
        by_contra hne
        exact hx (honly x (List.mem_cons_self _ _) hne)
      rw [cachedStep_noCachedBase L x s (Or.inl hempty)]
      have hmem2 : r ∈ rest := by
        rcases List.mem_cons.mp hmem with h | h
        · exact absurd h.symm hx
        · exact h
      exact ih hmem2 (fun y hy => honly y (List.mem_cons_of_mem _ hy))

theorem callsMade_self (s : St) : callsMade s s = [] := by
  simp [callsMade]

theorem callsMade_append (s s1 : St) (cs : List Call) (h : s1.log = s.log ++ cs) :
    callsMade s s1 = cs := by
  simp [callsMade, h]

theorem cachedStep_base (L : Lib) (r : Remote) (s : St) (h : r.Resolved = "base") :
    cachedStep L r s = some (s, .ret (some (.remote r)) none) := by
  unfold cachedStep
  rw [if_pos h]

theorem cachedStep_base_colon (L : Lib) (r : Remote) (s : St) (str : String)
    (h : r.Resolved = "base:" ++ str) :
    cachedStep L r s =
      some (s, match L.FromFullName str with
        | .error err => .ret none (some err)
        | .ok repo => .ret (some (NewWithHost repo.RepoOwner repo.RepoName r.RepoHost)) none) := by
  unfold cachedStep
  rw [h, if_neg (base_colon_ne_base str), if_pos (hasPrefix_append _ _), trimPrefix_append]
  cases L.FromFullName str <;> rfl

theorem cachedStep_legacy (L : Lib) (r : Remote) (s : St)
    (hne : r.Resolved ≠ "") (hnb : r.Resolved ≠ "base")
    (hnbc : HasPrefix r.Resolved "base:" = false) (hnh : HasPrefix r.Resolved "head:" = false) :
    cachedStep L r s =
      some (match L.FromFullName r.Resolved with
        | .error err => (s, .ret none (some err))
        | .ok repo =>
            ({ s with log := s.log ++ [Call.setRemoteResolution r.Name ("base:" ++ r.Resolved)] },
              .ret (some (NewWithHost repo.RepoOwner repo.RepoName r.RepoHost)) none)) := by
  unfold cachedStep
  rw [if_neg hnb]
  simp only [hnbc, hnh, hne]
  cases L.FromFullName r.Resolved <;> simp [hne]

theorem baseRepo_of_override (L : Lib) (W : World) (s : St) (prompt : Bool) (o : Interface)
    (h : s.rr.baseOverride = some o) : BaseRepo L W s prompt = (s, .ret (some o) none) := by
  unfold BaseRepo
  rw [h]

theorem baseRepo_of_cachedLoop (L : Lib) (W : World) (s : St) (prompt : Bool)
    (res : St × Outcome) (hov : s.rr.baseOverride = none)
    (h : cachedLoop L s.rr.remotes s = some res) : BaseRepo L W s prompt = res := by
  unfold BaseRepo
  rw [hov]
  simp only [h]

theorem retag_only (R : Remote) (tag : String) (l : List Remote)
    (honly : ∀ x ∈ l, x.Resolved ≠ "" → x = R) :
    ∀ x ∈ retag R tag l, x.Resolved ≠ "" → x = { R with Resolved := tag } := by
  intro x hx hne
  obtain ⟨y, hy, rfl⟩ := List.mem_map.mp hx
  by_cases hyR : y = R
  · simp [hyR]
  · rw [if_neg hyR] at hne ⊢
    exact absurd (honly y hy hne) hyR

theorem retag_mem (R : Remote) (tag : String) (l : List Remote) (hmem : R ∈ l) :
    { R with Resolved := tag } ∈ retag R tag l :=
  List.mem_map.mpr ⟨R, hmem, by simp⟩

/-! ## The walk over the remotes -/

theorem fetchedRecords_nil (L : Lib) (W : World) (log : List Call) :
    fetchedRecords L W log [] = [] := rfl

theorem fetchedRecords_cons (L : Lib) (W : World) (log : List Call) (r : Remote)
    (l : List Remote) :
    fetchedRecords L W log (r :: l)
      = (W.GetProject log (L.FullName r)).toOption.toList
          ++ fetchedRecords L W (log ++ [lookupCall L r]) l := by
  unfold fetchedRecords
  rw [List.inits_cons, List.zip_cons_cons, List.filterMap_cons, List.zip_map_left,
    List.filterMap_map]
  have hfun : ((fun br : List Remote × Remote =>
        (W.GetProject (log ++ br.1.map (lookupCall L)) (L.FullName br.2)).toOption)
        ∘ Prod.map (fun t => r :: t) id)
      = (fun br : List Remote × Remote =>
        (W.GetProject ((log ++ [lookupCall L r]) ++ br.1.map (lookupCall L))
          (L.FullName br.2)).toOption) := by
    funext br
    simp [Function.comp, Prod.map]
  rw [hfun]
  simp only [List.map_nil, List.append_nil]
  cases W.GetProject log (L.FullName r) <;> simp [Except.toOption]

theorem extendNetwork_nil (network : Option (List Project)) :
    extendNetwork network [] = network := by
  simp [extendNetwork]

theorem extendNetwork_append (network : Option (List Project)) (p : Project)
    (ps : List Project) :
    extendNetwork (appendNetwork network p) ps = extendNetwork network (p :: ps) := by
  unfold extendNetwork appendNetwork
  by_cases h : ps = []
  · simp [h]
  · simp [h]

/-- One iteration: the lookup is logged, and the record is appended when the
fetch succeeded. -/
theorem resolveNetworkStep_eq (L : Lib) (W : World) (r : Remote) (s : St) :
    resolveNetworkStep L W r s
      = { rr := { s.rr with network :=
                    extendNetwork s.rr.network (W.GetProject s.log (L.FullName r)).toOption.toList },
          log := s.log ++ [lookupCall L r] } := by
  unfold resolveNetworkStep lookupCall
  cases h : W.GetProject s.log (L.FullName r) with
  | error e => simp [h, Except.toOption, extendNetwork]
  | ok p => simp [h, Except.toOption, extendNetwork, appendNetwork]

/-- The loop run to the end (the total number of remotes is not
`maxRemotesForLookup`). -/
theorem resolveNetworkLoop_all (L : Lib) (W : World) (n : Nat) (hn : n ≠ maxRemotesForLookup)
    (l : List Remote) (s : St) :
    resolveNetworkLoop L W n l s
      = { rr := { s.rr with network := extendNetwork s.rr.network (fetchedRecords L W s.log l) },
          log := s.log ++ l.map (lookupCall L) } := by
  induction l generalizing s with
  | nil => simp [resolveNetworkLoop, fetchedRecords_nil, extendNetwork_nil]
  | cons r rest ih =>
    simp only [resolveNetworkLoop, if_neg hn]
    rw [ih, resolveNetworkStep_eq, fetchedRecords_cons]
    cases h : W.GetProject s.log (L.FullName r) with
    | error e => simp [Except.toOption, extendNetwork_nil]
    | ok p =>
      simp only [Except.toOption, Option.toList, List.singleton_append, List.map_cons,
        List.append_assoc]
      have := extendNetwork_append s.rr.network p
        (fetchedRecords L W (s.log ++ [lookupCall L r]) rest)
      simp only [appendNetwork] at this
      simp [extendNetwork, this]

theorem processedRemotes_of_ne (l : List Remote) (h : l.length ≠ maxRemotesForLookup) :
    processedRemotes l = l := by
  simp [processedRemotes, h]

theorem processedRemotes_of_eq (r : Remote) (rest : List Remote)
    (h : (r :: rest).length = maxRemotesForLookup) : processedRemotes (r :: rest) = [r] := by
  simp [processedRemotes, h]

/-- What `resolveNetwork` does to the state, in closed form. -/
theorem resolveNetwork_state (L : Lib) (W : World) (s : St) :
    (resolveNetwork L W s).1
      = { rr := { s.rr with
                network := extendNetwork s.rr.network
                  (fetchedRecords L W s.log (processedRemotes s.rr.remotes)) },
          log := s.log ++ (processedRemotes s.rr.remotes).map (lookupCall L) } := by
  unfold resolveNetwork
  by_cases h : s.rr.remotes.length = maxRemotesForLookup
  · cases hl : s.rr.remotes with
    | nil => rw [hl] at h; exact absurd h (by decide)
    | cons r rest =>
      rw [hl] at h
      rw [processedRemotes_of_eq r rest h]
      simp only [resolveNetworkLoop, if_pos h]
      rw [resolveNetworkStep_eq, fetchedRecords_cons, fetchedRecords_nil]
      simp
  · rw [processedRemotes_of_ne _ h]
    exact resolveNetworkLoop_all L W _ h _ s

/-! ## The candidates -/

theorem lookup_isSome_iff (k : String) (l : List (String × Project)) :
    (l.lookup k).isSome = true ↔ k ∈ l.map Prod.fst := by
  induction l with
  | nil => simp
  | cons e es ih =>
    obtain ⟨k2, b⟩ := e
    rw [List.lookup_cons]
    by_cases h : k = k2
    · subst h; simp
    · have hb : (k == k2) = false := by simpa using h
      simp only [hb, List.map_cons, List.mem_cons, h, false_or]
      exact ih

theorem add_of_mem (L : Lib) (c : Cands) (p : Project) (hc : c.Consistent)
    (h : fullNameOf L p ∈ c.repoNames) : add L c p = c := by
  unfold add
  have : (c.repoMap.lookup (L.FullNameFromURL p.HTTPURLToRepo).1).isSome = true := by
    rw [lookup_isSome_iff, ← hc]; exact h
  simp [this]

theorem add_of_not_mem (L : Lib) (c : Cands) (p : Project) (hc : c.Consistent)
    (h : fullNameOf L p ∉ c.repoNames) :
    add L c p = { repoNames := c.repoNames ++ [fullNameOf L p],
                  repoMap := c.repoMap ++ [(fullNameOf L p, p)] } := by
  unfold add
  have : ¬ (c.repoMap.lookup (L.FullNameFromURL p.HTTPURLToRepo).1).isSome = true := by
    rw [lookup_isSome_iff, ← hc]; exact h
  simp only [this]
  rfl

theorem add_consistent (L : Lib) (c : Cands) (p : Project) (hc : c.Consistent) :
    (add L c p).Consistent := by
  by_cases h : fullNameOf L p ∈ c.repoNames
  · rw [add_of_mem L c p hc h]; exact hc
  · rw [add_of_not_mem L c p hc h]
    unfold Cands.Consistent at *
    simp [hc]

theorem foldl_add_consistent (L : Lib) (vs : List Project) (c : Cands) (hc : c.Consistent) :
    (vs.foldl (add L) c).Consistent := by
  induction vs generalizing c with
  | nil => exact hc
  | cons p vs ih => exact ih _ (add_consistent L c p hc)

theorem foldl_add_names (L : Lib) (vs : List Project) (c : Cands) (hc : c.Consistent) :
    (vs.foldl (add L) c).repoNames
      = c.repoNames
          ++ (dedupFirst (vs.map (fullNameOf L))).filter (fun y => decide (y ∉ c.repoNames)) := by
  induction vs generalizing c with
  | nil => simp [dedupFirst]
  | cons p vs ih =>
    rw [List.foldl_cons, ih _ (add_consistent L c p hc)]
    simp only [List.map_cons, dedupFirst]
    by_cases h : fullNameOf L p ∈ c.repoNames
    · rw [add_of_mem L c p hc h]
      rw [List.filter_cons_of_neg (by simpa using h), List.filter_filter]
      congr 1
      apply List.filter_congr
      intro y _
      by_cases hy : y ∈ c.repoNames
      · simp [hy]
      · have : y ≠ fullNameOf L p := fun e => hy (e ▸ h)
        simp [hy, this]
    · rw [add_of_not_mem L c p hc h]
      rw [List.filter_cons_of_pos (by simpa using h), List.filter_filter]
      simp only [List.append_assoc, List.singleton_append]
      congr 2
      apply List.filter_congr
      intro y _
      by_cases hy : y = fullNameOf L p
      · simp [hy]
      · simp [hy, not_or]

theorem foldl_add_lookup (L : Lib) (vs : List Project) (c : Cands) (hc : c.Consistent)
    (k : String) :
    (vs.foldl (add L) c).repoMap.lookup k
      = (c.repoMap.lookup k).or (vs.find? (fun p => fullNameOf L p == k)) := by
  induction vs generalizing c with
  | nil => simp
  | cons p vs ih =>
    rw [List.foldl_cons, ih _ (add_consistent L c p hc), List.find?_cons]
    by_cases h : fullNameOf L p ∈ c.repoNames
    · rw [add_of_mem L c p hc h]
      by_cases hk : fullNameOf L p = k
      · have hs : (c.repoMap.lookup k).isSome = true := by
          rw [lookup_isSome_iff, ← hc, ← hk]; exact h
        obtain ⟨v, hv⟩ := Option.isSome_iff_exists.mp hs
        simp [hv]
      · have hb : (fullNameOf L p == k) = false := by simpa using hk
        simp [hb]
    · rw [add_of_not_mem L c p hc h, List.lookup_append]
      by_cases hk : fullNameOf L p = k
      · have hn : c.repoMap.lookup k = none := by
          have : ¬ (c.repoMap.lookup k).isSome = true := by
            rw [lookup_isSome_iff, ← hc, ← hk]; exact h
          cases hl : c.repoMap.lookup k with
          | none => rfl
          | some v => rw [hl] at this; exact absurd rfl this
        simp [hn, hk, List.lookup_cons]
      · have hb : (fullNameOf L p == k) = false := by simpa using hk
        have hb2 : (k == fullNameOf L p) = false := by simpa using (Ne.symm hk)
        simp [hb, hb2, List.lookup_cons]

theorem dedupFirst_nodup (xs : List String) : (dedupFirst xs).Nodup := by
  induction xs with
  | nil => simp [dedupFirst]
  | cons x xs ih =>
    simp only [dedupFirst, List.nodup_cons]
    exact ⟨by simp [List.mem_filter], ih.filter _⟩

/-- When every fetch of a fork parent succeeds, the loop over the network adds
the visited records one after the other and logs the lookups of the parents. -/
theorem candLoop_of_visitRecords (L : Lib) (W : World) (network : List Project)
    (log : List Call) (c : Cands) (vs : List Project)
    (h : visitRecords W network log = some vs) :
    candLoop L W network log c = (log ++ parentCalls network, some (vs.foldl (add L) c)) := by
  induction network generalizing log c vs with
  | nil =>
    simp only [visitRecords, Option.some.injEq] at h
    subst h
    simp [candLoop, parentCalls]
  | cons p rest ih =>
    unfold visitRecords at h
    unfold candLoop
    cases hp : p.ForkedFromProject with
    | none =>
      rw [hp] at h
      simp only [Option.map_eq_some'] at h
      obtain ⟨vs2, hvs2, rfl⟩ := h
      simp only [ih log _ vs2 hvs2, parentCalls, List.filterMap_cons, hp, Option.map_none',
        List.foldl_cons]
    | some parent =>
      rw [hp] at h
      simp only at h
      cases hg : W.GetProject log parent.PathWithNamespace with
      | error e => rw [hg] at h; simp at h
      | ok f =>
        rw [hg] at h
        simp only [Option.map_eq_some'] at h
        obtain ⟨vs2, hvs2, rfl⟩ := h
        simp only [ih _ _ vs2 hvs2, parentCalls, List.filterMap_cons, hp, Option.map_some',
          List.foldl_cons, List.append_assoc, List.singleton_append, hg]

theorem candLoop_consistent (L : Lib) (W : World) (network : List Project)
    (log : List Call) (c : Cands) (hc : c.Consistent) (log2 : List Call) (c2 : Cands)
    (h : candLoop L W network log c = (log2, some c2)) : c2.Consistent := by
  induction network generalizing log c with
  | nil =>
    simp only [candLoop, Prod.mk.injEq, Option.some.injEq] at h
    rw [← h.2]; exact hc
  | cons p rest ih =>
    unfold candLoop at h
    cases hp : p.ForkedFromProject with
    | none =>
      rw [hp] at h
      exact ih _ _ (add_consistent L c p hc) h
    | some parent =>
      rw [hp] at h
      simp only at h
      cases hg : W.GetProject log parent.PathWithNamespace with
      | error e => rw [hg] at h; simp at h
      | ok f =>
        rw [hg] at h
        exact ih _ _ (add_consistent L _ p (add_consistent L c f hc)) h

/-! ## The calls of a run -/

theorem noAsk_nil : noAsk [] := by
  intro x hx; cases hx

theorem noAsk_append (a b : List Call) (ha : noAsk a) (hb : noAsk b) : noAsk (a ++ b) := by
  intro x hx
  rcases List.mem_append.mp hx with h | h
  · exact ha x h
  · exact hb x h

theorem noAsk_lookup (n : String) : noAsk [Call.getProject n] := by
  intro x hx o
  rw [List.mem_singleton.mp hx]
  exact Call.noConfusion

theorem noAsk_set (n t : String) : noAsk [Call.setRemoteResolution n t] := by
  intro x hx o
  rw [List.mem_singleton.mp hx]
  exact Call.noConfusion

theorem noAsk_map_lookupCall (L : Lib) (l : List Remote) : noAsk (l.map (lookupCall L)) := by
  intro x hx o
  obtain ⟨r, _, rfl⟩ := List.mem_map.mp hx
  exact Call.noConfusion

theorem candLoop_log (L : Lib) (W : World) (network : List Project) (log : List Call)
    (c : Cands) : ∃ cs, (candLoop L W network log c).1 = log ++ cs ∧ noAsk cs := by
  induction network generalizing log c with
  | nil => exact ⟨[], by simp [candLoop], noAsk_nil⟩
  | cons p rest ih =>
    unfold candLoop
    cases hp : p.ForkedFromProject with
    | none => exact ih log _
    | some parent =>
      simp only
      cases hg : W.GetProject log parent.PathWithNamespace with
      | error e => exact ⟨_, rfl, noAsk_lookup _⟩
      | ok f =>
        obtain ⟨cs, hcs, hno⟩ := ih (log ++ [Call.getProject parent.PathWithNamespace])
          (add L (add L c f) p)
        exact ⟨[Call.getProject parent.PathWithNamespace] ++ cs,
          by simp only [hcs, List.append_assoc], noAsk_append _ _ (noAsk_lookup _) hno⟩

theorem ensureNetwork_log (L : Lib) (W : World) (s : St) :
    ∃ cs, (ensureNetwork L W s).log = s.log ++ cs ∧ noAsk cs := by
  unfold ensureNetwork
  by_cases h : s.rr.network = none
  · rw [if_pos h, resolveNetwork_state]
    exact ⟨_, rfl, noAsk_map_lookupCall L _⟩
  · rw [if_neg h]
    exact ⟨[], by simp, noAsk_nil⟩

theorem ensureNetwork_remotes (L : Lib) (W : World) (s : St) :
    (ensureNetwork L W s).rr.remotes = s.rr.remotes := by
  unfold ensureNetwork
  by_cases h : s.rr.network = none
  · rw [if_pos h, resolveNetwork_state]
  · rw [if_neg h]

/-- The end of `BaseRepo` for the chosen name, case by case. -/
theorem persistChoice_cases (L : Lib) (W : World) (s : St) (c : Cands) (n : String) :
    (∃ cs, (persistChoice L W s c n).1.log = s.log ++ cs ∧ noAsk cs) ∧
    (∀ v e, (persistChoice L W s c n).2 = .ret v e →
      ∃ p ref, c.repoMap.lookup n = some p ∧ L.FromFullName p.HTTPURLToRepo = .ok ref ∧
        v = some ref) ∧
    (∀ p ref, c.repoMap.lookup n = some p → L.FromFullName p.HTTPURLToRepo = .ok ref →
      s.rr.remotes ≠ [] → ∃ e, (persistChoice L W s c n).2 = .ret (some ref) e) := by
  unfold persistChoice
  cases hl : c.repoMap.lookup n with
  | none =>
    refine ⟨⟨[], by simp, noAsk_nil⟩, ?_, ?_⟩
    · intro v e h; simp at h
    · intro p ref h; simp at h
  | some p =>
    simp only
    cases hf : L.FromFullName p.HTTPURLToRepo with
    | error err =>
      refine ⟨⟨[], by simp, noAsk_nil⟩, ?_, ?_⟩
      · intro v e h; simp at h
      · intro p2 ref h2 h3
        simp only [Option.some.injEq] at h2
        subst h2
        rw [hf] at h3
        simp at h3
    | ok ref =>
      simp only
      cases hr : (RemoteForRepo L s.rr ref).1 with
      | some remote =>
        refine ⟨⟨_, rfl, noAsk_set _ _⟩, ?_, ?_⟩
        · intro v e h
          simp only [Outcome.ret.injEq] at h
          exact ⟨p, ref, rfl, hf, h.1.symm⟩
        · intro p2 ref2 h2 h3 _
          simp only [Option.some.injEq] at h2
          subst h2
          rw [hf] at h3
          simp only [Except.ok.injEq] at h3
          subst h3
          exact ⟨_, rfl⟩
      | none =>
        simp only
        cases hrem : s.rr.remotes with
        | nil =>
          refine ⟨⟨[], by simp, noAsk_nil⟩, ?_, ?_⟩
          · intro v e h; simp at h
          · intro p2 ref2 _ _ hne; exact absurd rfl hne
        | cons remote rest =>
          refine ⟨⟨_, rfl, noAsk_set _ _⟩, ?_, ?_⟩
          · intro v e h
            simp only [Outcome.ret.injEq] at h
            exact ⟨p, ref, rfl, hf, h.1.symm⟩
          · intro p2 ref2 h2 h3 _
            simp only [Option.some.injEq] at h2
            subst h2
            rw [hf] at h3
            simp only [Except.ok.injEq] at h3
            subst h3
            exact ⟨_, rfl⟩

theorem cachedStep_none (L : Lib) (r : Remote) (s : St) (h : cachedStep L r s = none) :
    noCachedBase r.Resolved := by
  unfold cachedStep at h
  by_cases h1 : r.Resolved = "base"
  · rw [if_pos h1] at h; cases h
  · rw [if_neg h1] at h
    by_cases h2 : HasPrefix r.Resolved "base:" = true
    · rw [if_pos h2] at h
      cases hf : L.FromFullName (TrimPrefix r.Resolved "base:") <;> rw [hf] at h <;> cases h
    · rw [if_neg h2] at h
      by_cases h3 : (r.Resolved ≠ "" && !HasPrefix r.Resolved "head:") = true
      · rw [if_pos h3] at h
        cases hf : L.FromFullName r.Resolved <;> rw [hf] at h <;> cases h
      · unfold noCachedBase
        by_cases h4 : r.Resolved = ""
        · exact Or.inl h4
        · right
          simpa [h4] using h3

theorem cachedStep_some_log (L : Lib) (r : Remote) (s : St) (res : St × Outcome)
    (h : cachedStep L r s = some res) : ∃ cs, res.1.log = s.log ++ cs ∧ noAsk cs := by
  unfold cachedStep at h
  by_cases h1 : r.Resolved = "base"
  · rw [if_pos h1] at h
    simp only [Option.some.injEq] at h
    subst h
    exact ⟨[], by simp, noAsk_nil⟩
  · rw [if_neg h1] at h
    by_cases h2 : HasPrefix r.Resolved "base:" = true
    · rw [if_pos h2] at h
      cases hf : L.FromFullName (TrimPrefix r.Resolved "base:") <;> rw [hf] at h <;>
        simp only [Option.some.injEq] at h <;> subst h <;> exact ⟨[], by simp, noAsk_nil⟩
    · rw [if_neg h2] at h
      by_cases h3 : (r.Resolved ≠ "" && !HasPrefix r.Resolved "head:") = true
      · rw [if_pos h3] at h
        cases hf : L.FromFullName r.Resolved with
        | error e =>
          rw [hf] at h
          simp only [Option.some.injEq] at h
          subst h
          exact ⟨[], by simp, noAsk_nil⟩
        | ok repo =>
          rw [hf] at h
          simp only [Option.some.injEq] at h
          subst h
          exact ⟨_, rfl, noAsk_set _ _⟩
      · rw [if_neg h3] at h; cases h

theorem cachedLoop_none (L : Lib) (s : St) (l : List Remote) (h : cachedLoop L l s = none) :
    ∀ x ∈ l, noCachedBase x.Resolved := by
  induction l with
  | nil => intro x hx; cases hx
  | cons r rest ih =>
    simp only [cachedLoop] at h
    cases hs : cachedStep L r s with
    | some res => rw [hs] at h; cases h
    | none =>
      rw [hs] at h
      intro x hx
      rcases List.mem_cons.mp hx with e | e
      · rw [e]; exact cachedStep_none L r s hs
      · exact ih h x e

theorem cachedLoop_some_log (L : Lib) (s : St) (l : List Remote) (res : St × Outcome)
    (h : cachedLoop L l s = some res) : ∃ cs, res.1.log = s.log ++ cs ∧ noAsk cs := by
  induction l with
  | nil => cases h
  | cons r rest ih =>
    simp only [cachedLoop] at h
    cases hs : cachedStep L r s with
    | some res2 =>
      rw [hs] at h
      simp only [Option.some.injEq] at h
      subst h
      exact cachedStep_some_log L r s _ hs
    | none => rw [hs] at h; exact ih h

/-- The calls of the part of `BaseRepo` after the network is known: the chooser
is asked exactly when there are candidates with more than one name, and then
for exactly these names. -/
theorem chooseBase_log (L : Lib) (W : World) (s : St) :
    ∃ cs, (chooseBase L W s).1.log = s.log ++ cs ∧
      ∀ options, Call.askOne options ∈ cs ↔
        ∃ c, (candidates L W s).2 = some c ∧ 1 < c.repoNames.length ∧
          options = c.repoNames := by
  obtain ⟨cs1, hlog1, hno1⟩ := candLoop_log L W (s.rr.network.getD []) s.log
    { repoNames := [], repoMap := [] }
  unfold chooseBase
  cases hc : candidates L W s with
  | mk log oc =>
    have hlog : log = s.log ++ cs1 := by
      have := hlog1
      unfold candidates at hc
      rw [hc] at this
      exact this
    cases oc with
    | none =>
      refine ⟨cs1, hlog, fun options => ⟨fun h => absurd rfl (hno1 _ h options), ?_⟩⟩
      rintro ⟨c, h, _⟩
      cases h
    | some c =>
      simp only
      cases hn : c.repoNames with
      | nil =>
        have hcs : ∀ options, Call.askOne options ∈ cs1 ↔
            ∃ c2, some c = some c2 ∧ 1 < c2.repoNames.length ∧ options = c2.repoNames := by
          intro options
          refine ⟨fun h => absurd rfl (hno1 _ h options), ?_⟩
          rintro ⟨c2, h, hlen, _⟩
          simp only [Option.some.injEq] at h
          subst h
          rw [hn] at hlen
          simp at hlen
        cases hrem : s.rr.remotes <;> exact ⟨cs1, hlog, hcs⟩
      | cons n more =>
        simp only
        by_cases hm : more.length + 1 > 1
        · rw [if_pos hm]
          have key : ∀ cs3, noAsk cs3 → ∀ options,
              Call.askOne options ∈ cs1 ++ [Call.askOne (n :: more)] ++ cs3 ↔
                ∃ c2, some c = some c2 ∧ 1 < c2.repoNames.length ∧
                  options = c2.repoNames := by
            intro cs3 hno3 options
            constructor
            · intro h
              refine ⟨c, rfl, by rw [hn]; exact hm, ?_⟩
              rw [hn]
              rcases List.mem_append.mp h with h | h
              · rcases List.mem_append.mp h with h | h
                · exact absurd rfl (hno1 _ h options)
                · simpa using h
              · exact absurd rfl (hno3 _ h options)
            · rintro ⟨c2, h, _, ho⟩
              simp only [Option.some.injEq] at h
              subst h
              rw [ho, hn]
              simp
          cases ha : W.AskOne log (n :: more) with
          | error err =>
            refine ⟨cs1 ++ [Call.askOne (n :: more)] ++ [], ?_, key [] noAsk_nil⟩
            simp [hlog]
          | ok chosen =>
            simp only
            obtain ⟨⟨cs3, hlog3, hno3⟩, _⟩ := persistChoice_cases L W
              { rr := s.rr, log := log ++ [Call.askOne (n :: more)] } c chosen
            refine ⟨cs1 ++ [Call.askOne (n :: more)] ++ cs3, ?_, key cs3 hno3⟩
            rw [hlog3, hlog]
            simp
        · rw [if_neg hm]
          obtain ⟨⟨cs3, hlog3, hno3⟩, _⟩ := persistChoice_cases L W
            { rr := s.rr, log := log } c n
          refine ⟨cs1 ++ cs3, ?_, ?_⟩
          · rw [hlog3, hlog]
            simp
          · intro options
            constructor
            · intro h
              rcases List.mem_append.mp h with h | h
              · exact absurd rfl (hno1 _ h options)
              · exact absurd rfl (hno3 _ h options)
            · rintro ⟨c2, h, hlen, _⟩
              simp only [Option.some.injEq] at h
              subst h
              rw [hn] at hlen
              exact absurd hlen hm

theorem baseRepo_of_prompt (L : Lib) (W : World) (s : St)
    (hov : s.rr.baseOverride = none) (hcl : cachedLoop L s.rr.remotes s = none) :
    BaseRepo L W s true = chooseBase L W (ensureNetwork L W s) := by
  unfold BaseRepo
  rw [hov]
  simp only [hcl]
  rfl

theorem baseRepo_no_prompt_log (L : Lib) (W : World) (s : St)
    (hov : s.rr.baseOverride = none) (hcl : cachedLoop L s.rr.remotes s = none) :
    (BaseRepo L W s false).1 = s := by
  unfold BaseRepo
  rw [hov]
  simp only [hcl]
  cases s.rr.remotes <;> rfl

theorem chooseBase_single (L : Lib) (W : World) (s : St) (c : Cands) (n : String)
    (hc : (candidates L W s).2 = some c) (hn : c.repoNames = [n]) :
    chooseBase L W s = persistChoice L W { s with log := (candidates L W s).1 } c n := by
  unfold chooseBase
  cases hcand : candidates L W s with
  | mk log oc =>
    rw [hcand] at hc
    simp only at hc
    subst hc
    simp only [hn]
    rfl

theorem callsMade_noAsk (s s1 : St) (cs : List Call) (h : s1.log = s.log ++ cs)
    (hno : noAsk cs) : noAsk (callsMade s s1) := by
  rw [callsMade_append s s1 cs h]; exact hno

/-! ## The scan of `RemoteForRepo` -/

theorem findRemote_append (L : Lib) (repo : Interface) (pre l : List Remote)
    (h : ∀ y ∈ pre, L.IsSame (.remote y) repo = false) :
    findRemote L repo (pre ++ l) = findRemote L repo l := by
  induction pre with
  | nil => rfl
  | cons x pre ih =>
    simp only [List.cons_append, findRemote]
    rw [h x (List.mem_cons_self _ _)]
    simp only [Bool.false_eq_true, if_false]
    exact ih (fun y hy => h y (List.mem_cons_of_mem _ hy))

theorem findRemote_first (L : Lib) (repo : Interface) (pre post : List Remote) (x : Remote)
    (hpre : ∀ y ∈ pre, L.IsSame (.remote y) repo = false)
    (hx : L.IsSame (.remote x) repo = true) :
    findRemote L repo (pre ++ x :: post) = some x := by
  rw [findRemote_append L repo pre _ hpre]
  simp only [findRemote, hx, if_true]

theorem findRemote_none_iff (L : Lib) (repo : Interface) (l : List Remote) :
    findRemote L repo l = none ↔ ∀ y ∈ l, L.IsSame (.remote y) repo = false := by
  induction l with
  | nil => simp [findRemote]
  | cons x rest ih =>
    simp only [findRemote]
    by_cases hx : L.IsSame (.remote x) repo = true
    · simp [hx]
    · have hf : L.IsSame (.remote x) repo = false := by simpa using hx
      simp only [hf, Bool.false_eq_true, if_false, ih, List.mem_cons, forall_eq_or_imp, true_and]

theorem findRemote_some (L : Lib) (repo : Interface) (l : List Remote) (x : Remote)
    (h : findRemote L repo l = some x) :
    ∃ pre post, l = pre ++ x :: post ∧ (∀ y ∈ pre, L.IsSame (.remote y) repo = false) ∧
      L.IsSame (.remote x) repo = true := by
  induction l with
  | nil => cases h
  | cons a rest ih =>
    simp only [findRemote] at h
    by_cases ha : L.IsSame (.remote a) repo = true
    · rw [if_pos ha] at h
      simp only [Option.some.injEq] at h
      subst h
      exact ⟨[], rest, rfl, by simp, ha⟩
    · rw [if_neg ha] at h
      obtain ⟨pre, post, hl, hpre, hx⟩ := ih h
      refine ⟨a :: pre, post, by rw [hl]; rfl, ?_, hx⟩
      intro y hy
      rcases List.mem_cons.mp hy with e | e
      · rw [e]; simpa using ha
      · exact hpre y e

theorem remoteForRepo_of_find_some (L : Lib) (r : ResolvedRemotes) (repo : Interface)
    (x : Remote) (h : findRemote L repo r.remotes = some x) :
    RemoteForRepo L r repo = (some x, none) := by
  unfold RemoteForRepo
  rw [h]

theorem remoteForRepo_of_find_none (L : Lib) (r : ResolvedRemotes) (repo : Interface)
    (h : findRemote L repo r.remotes = none) :
    RemoteForRepo L r repo = (none, some "not found") := by
  unfold RemoteForRepo
  rw [h]

/-- The body of the loop over the persisted resolutions does not depend on the
state: it returns the same outcome and appends the same calls to any log. -/
theorem cachedStep_shift (L : Lib) (r : Remote) (s : St) :
    cachedStep L r s
      = (cachedStep L r { rr := { baseOverride := none, remotes := [], network := none },
                          log := [] }).map
          (fun res => ({ s with log := s.log ++ res.1.log }, res.2)) := by
  unfold cachedStep
  by_cases h1 : r.Resolved = "base"
  · simp [h1]
  · simp only [if_neg h1]
    by_cases h2 : HasPrefix r.Resolved "base:" = true
    · simp only [if_pos h2]
      cases L.FromFullName (TrimPrefix r.Resolved "base:") <;> simp
    · simp only [if_neg h2]
      by_cases h3 : (r.Resolved ≠ "" && !HasPrefix r.Resolved "head:") = true
      · simp only [if_pos h3]
        cases L.FromFullName r.Resolved <;> simp
      · simp only [if_neg h3, Option.map_none']

theorem cachedStep_ne_none (L : Lib) (r : Remote) (s : St) (h : ¬ noCachedBase r.Resolved) :
    ∃ res, cachedStep L r s = some res := by
  cases hs : cachedStep L r s with
  | none => exact absurd (cachedStep_none L r s hs) h
  | some res => exact ⟨res, rfl⟩

/-- With no override, `BaseRepo` on remotes whose first remote with a cached base
resolution is `R` is the loop body on `R`. -/
theorem baseRepo_first_cached (L : Lib) (W : World) (s : St) (prompt : Bool)
    (pre post : List Remote) (R : Remote) (res : St × Outcome)
    (hov : s.rr.baseOverride = none)
    (hrem : s.rr.remotes = pre ++ R :: post)
    (hpre : ∀ x ∈ pre, noCachedBase x.Resolved)
    (hstep : cachedStep L R s = some res) :
    BaseRepo L W s prompt = res := by
  apply baseRepo_of_cachedLoop L W s prompt _ hov
  rw [hrem, cachedLoop_append L s pre R post hpre]
  simp only [cachedLoop, hstep]

theorem trimPrefix_of_not_hasPrefix (t p : String) (h : HasPrefix t p = false) :
    TrimPrefix t p = t := by
  unfold TrimPrefix
  simp [h]

/-! ## The selection and its persistence -/

theorem setCalls_append (a b : List Call) : setCalls (a ++ b) = setCalls a ++ setCalls b := by
  simp [setCalls]

theorem lookupCalls_append (a b : List Call) :
    lookupCalls (a ++ b) = lookupCalls a ++ lookupCalls b := by
  simp [lookupCalls]

theorem setCalls_of_lookups (cs : List Call) (h : ∀ x ∈ cs, x.isLookup = true) :
    setCalls cs = [] := by
  unfold setCalls
  rw [List.filter_eq_nil_iff]
  intro x hx
  have := h x hx
  cases x <;> simp [Call.isLookup, Call.isSet] at this ⊢

theorem lookupCalls_of_lookups (cs : List Call) (h : ∀ x ∈ cs, x.isLookup = true) :
    lookupCalls cs = cs := by
  unfold lookupCalls
  rw [List.filter_eq_self]
  exact h

theorem map_lookupCall_lookups (L : Lib) (l : List Remote) :
    ∀ x ∈ l.map (lookupCall L), x.isLookup = true := by
  intro x hx
  obtain ⟨r, _, rfl⟩ := List.mem_map.mp hx
  rfl

theorem parentCalls_lookups (network : List Project) :
    ∀ x ∈ parentCalls network, x.isLookup = true := by
  intro x hx
  unfold parentCalls at hx
  obtain ⟨p, _, hp⟩ := List.mem_filterMap.mp hx
  cases hf : p.ForkedFromProject with
  | none => rw [hf] at hp; cases hp
  | some parent =>
    rw [hf] at hp
    simp only [Option.map_some', Option.some.injEq] at hp
    rw [← hp]
    rfl

/-- The lookups the loop over the network makes are the lookups of the fork
parents, in order, up to the first one that fails. -/
theorem candLoop_log_prefix (L : Lib) (W : World) (network : List Project) (log : List Call)
    (c : Cands) :
    ∃ cs, (candLoop L W network log c).1 = log ++ cs ∧ cs <+: parentCalls network := by
  induction network generalizing log c with
  | nil => exact ⟨[], by simp [candLoop], List.nil_prefix⟩
  | cons p rest ih =>
    unfold candLoop
    cases hp : p.ForkedFromProject with
    | none =>
      obtain ⟨cs, hcs, hpre⟩ := ih log (add L c p)
      refine ⟨cs, hcs, ?_⟩
      simpa [parentCalls, hp] using hpre
    | some parent =>
      simp only
      have hpc : parentCalls (p :: rest)
          = Call.getProject parent.PathWithNamespace :: parentCalls rest := by
        simp [parentCalls, hp]
      cases hg : W.GetProject log parent.PathWithNamespace with
      | error e =>
        refine ⟨[Call.getProject parent.PathWithNamespace], rfl, ?_⟩
        rw [hpc]
        exact List.prefix_iff_eq_append.mpr (by simp)
      | ok f =>
        obtain ⟨cs, hcs, hpre⟩ := ih (log ++ [Call.getProject parent.PathWithNamespace])
          (add L (add L c f) p)
        refine ⟨Call.getProject parent.PathWithNamespace :: cs, ?_, ?_⟩
        · simp only [hcs, List.append_assoc, List.singleton_append]
        · rw [hpc]
          exact (List.prefix_cons_inj _).mpr hpre

theorem ensureNetwork_log_eq (L : Lib) (W : World) (s : St) :
    (ensureNetwork L W s).log
      = s.log ++ (if s.rr.network = none
          then (processedRemotes s.rr.remotes).map (lookupCall L) else []) := by
  unfold ensureNetwork
  by_cases h : s.rr.network = none
  · rw [if_pos h, if_pos h, resolveNetwork_state]
  · rw [if_neg h, if_neg h, List.append_nil]

theorem ensureNetwork_network (L : Lib) (W : World) (s : St) :
    (ensureNetwork L W s).rr.network
      = if s.rr.network = none
          then extendNetwork none (fetchedRecords L W s.log (processedRemotes s.rr.remotes))
          else s.rr.network := by
  unfold ensureNetwork
  by_cases h : s.rr.network = none
  · rw [if_pos h, if_pos h, resolveNetwork_state, h]
  · rw [if_neg h, if_neg h]

theorem ensureNetwork_override (L : Lib) (W : World) (s : St) :
    (ensureNetwork L W s).rr.baseOverride = s.rr.baseOverride := by
  unfold ensureNetwork
  by_cases h : s.rr.network = none
  · rw [if_pos h, resolveNetwork_state]
  · rw [if_neg h]

theorem chooseBase_asked (L : Lib) (W : World) (s : St) (c : Cands) (chosen : String)
    (hc : (candidates L W s).2 = some c) (hlen : 1 < c.repoNames.length)
    (hask : W.AskOne (candidates L W s).1 c.repoNames = .ok chosen) :
    chooseBase L W s
      = persistChoice L W
          { s with log := (candidates L W s).1 ++ [Call.askOne c.repoNames] } c chosen := by
  unfold chooseBase
  cases hcand : candidates L W s with
  | mk log oc =>
    rw [hcand] at hc hask
    simp only at hc hask
    subst hc
    cases hn : c.repoNames with
    | nil => rw [hn] at hlen; simp at hlen
    | cons n more =>
      rw [hn] at hlen hask
      have hm : more.length + 1 > 1 := by simpa using hlen
      simp only [hn, hm, if_true, hask]

/-- A run of `BaseRepo(true)` that selects the candidate `name` is the end of
`BaseRepo` for `name`, started after lookups and at most one chooser call. -/
theorem baseRepo_selected (L : Lib) (W : World) (s : St) (cands : Cands) (name : String)
    (hov : s.rr.baseOverride = none)
    (hall : ∀ x ∈ s.rr.remotes, noCachedBase x.Resolved)
    (hc : (candidates L W (ensureNetwork L W s)).2 = some cands)
    (hsel : selected L W (ensureNetwork L W s) cands name) :
    ∃ sSel before, BaseRepo L W s true = persistChoice L W sSel cands name ∧
      sSel.rr = (ensureNetwork L W s).rr ∧
      sSel.log = s.log ++ before ∧ setCalls before = [] := by
  have hcl := cachedLoop_noCachedBase L s _ hall
  rw [baseRepo_of_prompt L W s hov hcl]
  obtain ⟨cs1, hlog1, hpre1⟩ := candLoop_log_prefix L W
    ((ensureNetwork L W s).rr.network.getD []) (ensureNetwork L W s).log
    { repoNames := [], repoMap := [] }
  have hlog1b : (candidates L W (ensureNetwork L W s)).1 = (ensureNetwork L W s).log ++ cs1 :=
    hlog1
  have hs0 : setCalls (if s.rr.network = none
      then (processedRemotes s.rr.remotes).map (lookupCall L) else []) = [] := by
    by_cases h : s.rr.network = none
    · rw [if_pos h]; exact setCalls_of_lookups _ (map_lookupCall_lookups L _)
    · rw [if_neg h]; rfl
  have hs1 : setCalls cs1 = [] :=
    setCalls_of_lookups _ (fun x hx => parentCalls_lookups _ x (hpre1.subset hx))
  rcases hsel with hone | ⟨hlen, hask⟩
  · refine ⟨_, (if s.rr.network = none
        then (processedRemotes s.rr.remotes).map (lookupCall L) else []) ++ cs1,
      chooseBase_single L W _ cands name hc hone, rfl, ?_, ?_⟩
    · show (candidates L W (ensureNetwork L W s)).1 = s.log ++ _
      rw [hlog1b, ensureNetwork_log_eq, List.append_assoc]
    · rw [setCalls_append, hs0, hs1]; rfl
  · refine ⟨_, (if s.rr.network = none
        then (processedRemotes s.rr.remotes).map (lookupCall L) else []) ++ cs1
        ++ [Call.askOne cands.repoNames],
      chooseBase_asked L W _ cands name hc hlen hask, rfl, ?_, ?_⟩
    · show (candidates L W (ensureNetwork L W s)).1 ++ [Call.askOne cands.repoNames] = s.log ++ _
      rw [hlog1b, ensureNetwork_log_eq]
      simp only [List.append_assoc]
    · rw [setCalls_append, setCalls_append, hs0, hs1]; rfl

theorem persistChoice_matched (L : Lib) (W : World) (s : St) (c : Cands) (name : String)
    (p : Project) (ref : Interface) (r : Remote)
    (hlook : c.repoMap.lookup name = some p)
    (hparse : L.FromFullName p.HTTPURLToRepo = .ok ref)
    (hfind : findRemote L ref s.rr.remotes = some r) :
    persistChoice L W s c name
      = ({ s with log := s.log ++ [Call.setRemoteResolution r.Name "base"] },
         .ret (some ref) (W.SetRemoteResolution s.log r.Name "base")) := by
  unfold persistChoice
  simp only [hlook, hparse, remoteForRepo_of_find_some L s.rr ref r hfind]

theorem persistChoice_remoteless (L : Lib) (W : World) (s : St) (c : Cands) (name : String)
    (p : Project) (ref : Interface) (first : Remote) (rest : List Remote)
    (hlook : c.repoMap.lookup name = some p)
    (hparse : L.FromFullName p.HTTPURLToRepo = .ok ref)
    (hfind : findRemote L ref s.rr.remotes = none)
    (hrem : s.rr.remotes = first :: rest) :
    persistChoice L W s c name
      = ({ s with log := s.log
            ++ [Call.setRemoteResolution first.Name ("base:" ++ fullNameOf L p)] },
         .ret (some ref)
           (W.SetRemoteResolution s.log first.Name ("base:" ++ fullNameOf L p))) := by
  unfold persistChoice
  simp only [hlook, hparse, remoteForRepo_of_find_none L s.rr ref hfind, hrem]
  rfl

theorem chooseBase_zero (L : Lib) (W : World) (s : St) (c : Cands)
    (hc : (candidates L W s).2 = some c) (hn : c.repoNames = []) :
    chooseBase L W s
      = ({ s with log := (candidates L W s).1 },
         match s.rr.remotes with
         | [] => .crash
         | first :: _ => .ret (some (.remote first)) none) := by
  unfold chooseBase
  cases hcand : candidates L W s with
  | mk log oc =>
    rw [hcand] at hc
    simp only at hc
    subst hc
    simp only [hn]
    cases s.rr.remotes <;> rfl

theorem retag_split (r : Remote) (tag : String) (pre post : List Remote)
    (hpre : ∀ y ∈ pre, y ≠ r) :
    retag r tag (pre ++ r :: post) = pre ++ { r with Resolved := tag } :: retag r tag post := by
  unfold retag
  rw [List.map_append, List.map_cons, if_pos rfl]
  congr 1
  conv_rhs => rw [← List.map_id pre]
  apply List.map_congr_left
  intro y hy
  rw [if_neg (hpre y hy)]
  rfl

theorem candidates_of_no_network (L : Lib) (W : World) (s : St)
    (h : s.rr.network.getD [] = []) :
    candidates L W s = (s.log, some { repoNames := [], repoMap := [] }) := by
  unfold candidates
  rw [h]
  rfl

theorem ensureNetwork_no_remotes (L : Lib) (W : World) (s : St) (hrem : s.rr.remotes = [])
    (hnet : s.rr.network = none) : ensureNetwork L W s = s := by
  unfold ensureNetwork
  rw [if_pos hnet, resolveNetwork_state, hrem]
  have hp : processedRemotes [] = [] := by decide
  rw [hp, fetchedRecords_nil, extendNetwork_nil]
  cases s with
  | mk rr log =>
    cases rr with
    | mk o rem net =>
      simp only at hrem hnet
      subst hrem
      subst hnet
      simp

/-! ## The memoized network in later calls -/

theorem ensureNetwork_of_some (L : Lib) (W : World) (s : St) (h : s.rr.network ≠ none) :
    ensureNetwork L W s = s := by
  unfold ensureNetwork
  rw [if_neg h]

theorem lookupCalls_prefix_nil (network : List Project) :
    lookupCalls [] <+: parentCalls network := List.nil_prefix

theorem persistChoice_state (L : Lib) (W : World) (s : St) (c : Cands) (n : String) :
    ∃ cs, (persistChoice L W s c n).1 = { s with log := s.log ++ cs } ∧ lookupCalls cs = [] := by
  unfold persistChoice
  cases c.repoMap.lookup n with
  | none => exact ⟨[], by simp, rfl⟩
  | some p =>
    simp only
    cases L.FromFullName p.HTTPURLToRepo with
    | error err => exact ⟨[], by simp, rfl⟩
    | ok ref =>
      simp only
      cases (RemoteForRepo L s.rr ref).1 with
      | some remote => exact ⟨_, rfl, rfl⟩
      | none =>
        simp only
        cases s.rr.remotes with
        | nil => exact ⟨[], by simp, rfl⟩
        | cons remote rest => exact ⟨_, rfl, rfl⟩

/-- The state after the part of `BaseRepo` that follows the network step: the
instance is unchanged, and the lookups made are lookups of fork parents of the
network records, in order. -/
theorem chooseBase_state (L : Lib) (W : World) (s : St) :
    ∃ cs, (chooseBase L W s).1 = { s with log := s.log ++ cs } ∧
      lookupCalls cs <+: parentCalls (s.rr.network.getD []) := by
  obtain ⟨cs1, hlog1, hpre1⟩ := candLoop_log_prefix L W (s.rr.network.getD []) s.log
    { repoNames := [], repoMap := [] }
  have hl1 : lookupCalls cs1 = cs1 :=
    lookupCalls_of_lookups _ (fun x hx => parentCalls_lookups _ x (hpre1.subset hx))
  have fin : ∀ cs2, lookupCalls cs2 = [] →
      lookupCalls (cs1 ++ cs2) <+: parentCalls (s.rr.network.getD []) := by
    intro cs2 h2
    rw [lookupCalls_append, h2, List.append_nil, hl1]
    exact hpre1
  unfold chooseBase
  cases hc : candidates L W s with
  | mk log oc =>
    have hlog : log = s.log ++ cs1 := by
      have := hlog1
      unfold candidates at hc
      rw [hc] at this
      exact this
    cases oc with
    | none =>
      refine ⟨cs1 ++ [], ?_, fin [] rfl⟩
      simp [hlog]
    | some c =>
      simp only
      cases hn : c.repoNames with
      | nil =>
        cases s.rr.remotes <;> exact ⟨cs1 ++ [], by simp [hlog], fin [] rfl⟩
      | cons n more =>
        simp only
        by_cases hm : more.length + 1 > 1
        · rw [if_pos hm]
          cases W.AskOne log (n :: more) with
          | error err =>
            refine ⟨cs1 ++ [Call.askOne (n :: more)], ?_, fin _ rfl⟩
            simp [hlog]
          | ok chosen =>
            simp only
            obtain ⟨cs3, hst, hl3⟩ := persistChoice_state L W
              { rr := s.rr, log := log ++ [Call.askOne (n :: more)] } c chosen
            refine ⟨cs1 ++ ([Call.askOne (n :: more)] ++ cs3), ?_, fin _ ?_⟩
            · rw [hst, hlog]
              simp
            · rw [lookupCalls_append, hl3]
              rfl
        · rw [if_neg hm]
          obtain ⟨cs3, hst, hl3⟩ := persistChoice_state L W { rr := s.rr, log := log } c n
          refine ⟨cs1 ++ cs3, ?_, fin _ hl3⟩
          rw [hst, hlog]
          simp

theorem cachedLoop_state (L : Lib) (s : St) (l : List Remote) (res : St × Outcome)
    (h : cachedLoop L l s = some res) :
    ∃ cs, res.1 = { s with log := s.log ++ cs } ∧ lookupCalls cs = [] := by
  induction l with
  | nil => cases h
  | cons r rest ih =>
    simp only [cachedLoop] at h
    cases hs : cachedStep L r s with
    | none => rw [hs] at h; exact ih h
    | some res2 =>
      rw [hs] at h
      simp only [Option.some.injEq] at h
      subst h
      unfold cachedStep at hs
      by_cases h1 : r.Resolved = "base"
      · rw [if_pos h1] at hs
        simp only [Option.some.injEq] at hs
        subst hs
        exact ⟨[], by simp, rfl⟩
      · rw [if_neg h1] at hs
        by_cases h2 : HasPrefix r.Resolved "base:" = true
        · rw [if_pos h2] at hs
          cases hf : L.FromFullName (TrimPrefix r.Resolved "base:") <;> rw [hf] at hs <;>
            simp only [Option.some.injEq] at hs <;> subst hs <;> exact ⟨[], by simp, rfl⟩
        · rw [if_neg h2] at hs
          by_cases h3 : (r.Resolved ≠ "" && !HasPrefix r.Resolved "head:") = true
          · rw [if_pos h3] at hs
            cases hf : L.FromFullName r.Resolved with
            | error e =>
              rw [hf] at hs
              simp only [Option.some.injEq] at hs
              subst hs
              exact ⟨[], by simp, rfl⟩
            | ok repo =>
              rw [hf] at hs
              simp only [Option.some.injEq] at hs
              subst hs
              exact ⟨_, rfl, rfl⟩
          · rw [if_neg h3] at hs; cases hs

/-- On an instance whose network is not nil, `BaseRepo` leaves the instance as it
is, and its lookups are lookups of fork parents of the network records. -/
theorem baseRepo_state_of_network (L : Lib) (W : World) (s : St) (prompt : Bool)
    (hnet : s.rr.network ≠ none) :
    ∃ cs, (BaseRepo L W s prompt).1 = { s with log := s.log ++ cs } ∧
      lookupCalls cs <+: parentCalls (s.rr.network.getD []) := by
  cases hov : s.rr.baseOverride with
  | some o =>
    rw [baseRepo_of_override L W s prompt o hov]
    exact ⟨[], by simp, lookupCalls_prefix_nil _⟩
  | none =>
    cases hcl : cachedLoop L s.rr.remotes s with
    | some res =>
      rw [baseRepo_of_cachedLoop L W s prompt res hov hcl]
      obtain ⟨cs, hst, hl⟩ := cachedLoop_state L s _ res hcl
      exact ⟨cs, hst, by rw [hl]; exact List.nil_prefix⟩
    | none =>
      cases prompt with
      | false =>
        rw [baseRepo_no_prompt_log L W s hov hcl]
        exact ⟨[], by simp, lookupCalls_prefix_nil _⟩
      | true =>
        rw [baseRepo_of_prompt L W s hov hcl, ensureNetwork_of_some L W s hnet]
        exact chooseBase_state L W s

theorem headRepos_state (L : Lib) (W : World) (s : St) :
    (HeadRepos L W s).1 = ensureNetwork L W s := rfl

theorem headRepos_error (L : Lib) (W : World) (s : St) :
    (HeadRepos L W s).2.2 = none := rfl

/-! ## Claims -/

/-- C1: with a non-nil base override, `BaseRepo` returns exactly that override
with a nil error, whatever the remotes, their resolutions and `prompt` are; the
state is unchanged and no external call (`GetProject`, chooser,
`SetRemoteResolution`) is made. -/
theorem baseRepo_override (L : Lib) (W : World) (s : St) (prompt : Bool) (o : Interface)
    (h : s.rr.baseOverride = some o) :
    BaseRepo L W s prompt = (s, .ret (some o) none) ∧
      callsMade s (BaseRepo L W s prompt).1 = [] := by
  rw [baseRepo_of_override L W s prompt o h]
  exact ⟨rfl, callsMade_self s⟩

/-- C1 at a state with the override `gitlab.com/up/stream`, a remote tagged `base` and
a world in which every call fails. -/
theorem baseRepo_override_witness :
    BaseRepo sampleLib failingWorld
        { rr := { baseOverride := some (NewWithHost "up" "stream" "gitlab.com"),
                  remotes := [sampleRemote "origin" "me" "fork" "base"], network := none },
          log := [] } true
      = ({ rr := { baseOverride := some (NewWithHost "up" "stream" "gitlab.com"),
                   remotes := [sampleRemote "origin" "me" "fork" "base"], network := none },
           log := [] }, .ret (some (NewWithHost "up" "stream" "gitlab.com")) none) :=
  (baseRepo_override sampleLib failingWorld _ true _ rfl).1

/-- C2 as stated fails: of two remotes that both carry the resolution `base`,
`BaseRepo` returns the first, not the second. -/
theorem baseRepo_base_tag_later_remote :
    (freshSt [sampleRemote "origin" "me" "fork" "base",
              sampleRemote "upstream" "up" "stream" "base"]).rr.baseOverride = none ∧
    sampleRemote "upstream" "up" "stream" "base" ∈
      (freshSt [sampleRemote "origin" "me" "fork" "base",
                sampleRemote "upstream" "up" "stream" "base"]).rr.remotes ∧
    (sampleRemote "upstream" "up" "stream" "base").Resolved = "base" ∧
    (BaseRepo sampleLib sampleWorld
        (freshSt [sampleRemote "origin" "me" "fork" "base",
                  sampleRemote "upstream" "up" "stream" "base"]) true).2
      = .ret (some (.remote (sampleRemote "origin" "me" "fork" "base"))) none ∧
    (BaseRepo sampleLib sampleWorld
        (freshSt [sampleRemote "origin" "me" "fork" "base",
                  sampleRemote "upstream" "up" "stream" "base"]) true).2
      ≠ .ret (some (.remote (sampleRemote "upstream" "up" "stream" "base"))) none := by
  refine ⟨rfl, ?_, rfl, ?_, ?_⟩ <;> decide

/-- C2, amended: with no override, for a remote `R` whose resolution is exactly
`base` and such that every remote before it in the sequence has an empty or
`head:`-prefixed resolution, `BaseRepo` (either `prompt`) returns `R` itself with a
nil error, leaves the state unchanged and makes no external call, so no
`GetProject` call. -/
theorem baseRepo_base_tag (L : Lib) (W : World) (s : St) (prompt : Bool)
    (pre post : List Remote) (R : Remote)
    (hov : s.rr.baseOverride = none)
    (hrem : s.rr.remotes = pre ++ R :: post)
    (hpre : ∀ x ∈ pre, noCachedBase x.Resolved)
    (hR : R.Resolved = "base") :
    BaseRepo L W s prompt = (s, .ret (some (.remote R)) none) ∧
      callsMade s (BaseRepo L W s prompt).1 = [] := by
  have e : BaseRepo L W s prompt = (s, .ret (some (.remote R)) none) := by
    apply baseRepo_of_cachedLoop L W s prompt _ hov
    rw [hrem, cachedLoop_append L s pre R post hpre]
    simp only [cachedLoop]
    rw [cachedStep_base L R s hR]
  rw [e]
  exact ⟨rfl, callsMade_self s⟩

/-- C2, amended, at three remotes tagged `head:me/fork`, `base` and `base:a/b`: the
second is returned. -/
theorem baseRepo_base_tag_witness :
    BaseRepo sampleLib failingWorld
        (freshSt [sampleRemote "origin" "me" "fork" "head:me/fork",
                  sampleRemote "upstream" "up" "stream" "base",
                  sampleRemote "other" "x" "y" "base:a/b"]) true
      = (freshSt [sampleRemote "origin" "me" "fork" "head:me/fork",
                  sampleRemote "upstream" "up" "stream" "base",
                  sampleRemote "other" "x" "y" "base:a/b"],
         .ret (some (.remote (sampleRemote "upstream" "up" "stream" "base"))) none) :=
  (baseRepo_base_tag sampleLib failingWorld _ true
    [sampleRemote "origin" "me" "fork" "head:me/fork"]
    [sampleRemote "other" "x" "y" "base:a/b"]
    (sampleRemote "upstream" "up" "stream" "base") rfl rfl (by decide) rfl).1

/-- C3: with no override, when exactly one remote `R` carries a non-empty
resolution and that resolution is `base:` followed by a string that
`FromFullName` parses, `BaseRepo` (either `prompt`) returns the reference with
`R`'s host and the parsed owner and name, with a nil error; the state is unchanged
and no external call (`GetProject`, chooser, `SetRemoteResolution`) is made. -/
theorem baseRepo_base_colon_tag (L : Lib) (W : World) (s : St) (prompt : Bool)
    (R : Remote) (str : String) (repo : Interface)
    (hov : s.rr.baseOverride = none)
    (hmem : R ∈ s.rr.remotes)
    (honly : ∀ x ∈ s.rr.remotes, x.Resolved ≠ "" → x = R)
    (htag : R.Resolved = "base:" ++ str)
    (hparse : L.FromFullName str = .ok repo) :
    BaseRepo L W s prompt
        = (s, .ret (some (.repo { host := R.Repo.host, owner := repo.RepoOwner,
                                  name := repo.RepoName })) none) ∧
      callsMade s (BaseRepo L W s prompt).1 = [] := by
  have e : BaseRepo L W s prompt
      = (s, .ret (some (.repo { host := R.Repo.host, owner := repo.RepoOwner,
                                name := repo.RepoName })) none) := by
    apply baseRepo_of_cachedLoop L W s prompt _ hov
    apply cachedLoop_only L s R _ _ hmem honly
    rw [cachedStep_base_colon L R s str htag, hparse]
    rfl
  rw [e]
  exact ⟨rfl, callsMade_self s⟩

/-- C3 at two remotes of which the second is tagged `base:foo/bar`. -/
theorem baseRepo_base_colon_tag_witness :
    BaseRepo sampleLib failingWorld
        (freshSt [sampleRemote "origin" "me" "fork" "",
                  sampleRemote "upstream" "up" "stream" "base:foo/bar"]) true
      = (freshSt [sampleRemote "origin" "me" "fork" "",
                  sampleRemote "upstream" "up" "stream" "base:foo/bar"],
         .ret (some (.repo { host := "gitlab.com", owner := "foo", name := "bar" })) none) :=
  (baseRepo_base_colon_tag sampleLib failingWorld _ true
    (sampleRemote "upstream" "up" "stream" "base:foo/bar") "foo/bar"
    (.repo { host := "gitlab.com", owner := "foo", name := "bar" })
    rfl (by decide) (by decide) (by decide) rfl).1

/-- C4: with no override, when exactly one remote `R` carries a non-empty
resolution `t` and `t` is a legacy bare one (not `base`, without the prefixes
`base:` and `head:`), `BaseRepo` returns the same outcome (reference or error) as
on the remotes with `R`'s resolution replaced by `base:` followed by `t`; and when
`t` parses, the external calls made are exactly the one call
`SetRemoteResolution(R.Name, "base:" + t)`, and in every world, whatever that
call answers, the outcome is the parsed reference on `R`'s host with a nil
error. -/
theorem baseRepo_legacy_tag (L : Lib) (W : World) (s : St) (prompt : Bool)
    (R : Remote) (t : String)
    (hov : s.rr.baseOverride = none)
    (hmem : R ∈ s.rr.remotes)
    (honly : ∀ x ∈ s.rr.remotes, x.Resolved ≠ "" → x = R)
    (htag : R.Resolved = t)
    (hne : t ≠ "") (hnb : t ≠ "base")
    (hnbc : HasPrefix t "base:" = false) (hnh : HasPrefix t "head:" = false) :
    (BaseRepo L W s prompt).2
        = (BaseRepo L W
            { s with rr := { s.rr with remotes := retag R ("base:" ++ t) s.rr.remotes } }
            prompt).2 ∧
      (∀ repo, L.FromFullName t = .ok repo →
        callsMade s (BaseRepo L W s prompt).1
            = [Call.setRemoteResolution R.Name ("base:" ++ t)] ∧
          ∀ W2 : World, (BaseRepo L W2 s prompt).2
            = .ret (some (.repo { host := R.Repo.host, owner := repo.RepoOwner,
                                  name := repo.RepoName })) none) := by
  subst htag
  have hstep := cachedStep_legacy L R s hne hnb hnbc hnh
  have e : ∀ W2 : World, BaseRepo L W2 s prompt = _ := fun W2 =>
    baseRepo_of_cachedLoop L W2 s prompt _ hov (cachedLoop_only L s R _ _ hmem honly hstep)
  constructor
  · rw [e W]
    have e2 := baseRepo_of_cachedLoop L W
      { s with rr := { s.rr with remotes := retag R ("base:" ++ R.Resolved) s.rr.remotes } }
      prompt _ hov
      (cachedLoop_only L _ { R with Resolved := "base:" ++ R.Resolved } _ _
        (retag_mem R _ _ hmem) (retag_only R _ _ honly)
        (cachedStep_base_colon L _ _ R.Resolved rfl))
    rw [e2]
    cases L.FromFullName R.Resolved <;> rfl
  · intro repo hparse
    constructor
    · rw [e W, hparse]
      exact callsMade_append s _ _ rfl
    · intro W2
      rw [e W2, hparse]
      rfl

/-- C4 at two remotes of which the second carries the legacy tag `foo/bar`: the
only call is the rewrite to `base:foo/bar`. -/
theorem baseRepo_legacy_tag_witness :
    callsMade
        (freshSt [sampleRemote "origin" "me" "fork" "",
                  sampleRemote "upstream" "up" "stream" "foo/bar"])
        (BaseRepo sampleLib failingWorld
          (freshSt [sampleRemote "origin" "me" "fork" "",
                    sampleRemote "upstream" "up" "stream" "foo/bar"]) true).1
      = [Call.setRemoteResolution "upstream" "base:foo/bar"] :=
  ((baseRepo_legacy_tag sampleLib failingWorld _ true
    (sampleRemote "upstream" "up" "stream" "foo/bar") "foo/bar"
    rfl (by decide) (by decide) rfl (by decide) (by decide) (by decide) (by decide)).2
    (.repo { host := "gitlab.com", owner := "foo", name := "bar" }) rfl).1

/-- C5: for a non-empty remote sequence with no override in which every
resolution is empty or starts with `head:`, `BaseRepo(false)` returns the first
remote with a nil error; the state is unchanged and no external call
(`GetProject`, chooser, `SetRemoteResolution`) is made. -/
theorem baseRepo_no_prompt (L : Lib) (W : World) (s : St)
    (first : Remote) (rest : List Remote)
    (hov : s.rr.baseOverride = none)
    (hrem : s.rr.remotes = first :: rest)
    (hall : ∀ x ∈ s.rr.remotes, noCachedBase x.Resolved) :
    BaseRepo L W s false = (s, .ret (some (.remote first)) none) ∧
      callsMade s (BaseRepo L W s false).1 = [] := by
  have e : BaseRepo L W s false = (s, .ret (some (.remote first)) none) := by
    unfold BaseRepo
    rw [hov]
    simp only [cachedLoop_noCachedBase L s _ hall]
    rw [hrem]
    rfl
  rw [e]
  exact ⟨rfl, callsMade_self s⟩

/-- C5 at two remotes tagged with nothing and with `head:me/fork`. -/
theorem baseRepo_no_prompt_witness :
    BaseRepo sampleLib failingWorld
        (freshSt [sampleRemote "origin" "me" "fork" "",
                  sampleRemote "upstream" "up" "stream" "head:me/fork"]) false
      = (freshSt [sampleRemote "origin" "me" "fork" "",
                  sampleRemote "upstream" "up" "stream" "head:me/fork"],
         .ret (some (.remote (sampleRemote "origin" "me" "fork" ""))) none) :=
  (baseRepo_no_prompt sampleLib failingWorld _
    (sampleRemote "origin" "me" "fork" "") [sampleRemote "upstream" "up" "stream" "head:me/fork"]
    rfl rfl (by decide)).1

/-- C6, the code at six remotes: `resolveNetwork` calls `GetProject` for every one
of the six remotes, in order, and so for more than `maxRemotesForLookup`. -/
theorem resolveNetwork_six_remotes (L : Lib) (W : World) :
    callsMade (freshSt sixRemotes) (resolveNetwork L W (freshSt sixRemotes)).1
        = sixRemotes.map (lookupCall L) ∧
      maxRemotesForLookup
        < (callsMade (freshSt sixRemotes) (resolveNetwork L W (freshSt sixRemotes)).1).length := by
  have e : callsMade (freshSt sixRemotes) (resolveNetwork L W (freshSt sixRemotes)).1
      = sixRemotes.map (lookupCall L) := by
    rw [resolveNetwork_state]
    apply callsMade_append
    rw [processedRemotes_of_ne _ (by decide)]
    rfl
  rw [e, List.length_map]
  exact ⟨rfl, by decide⟩

/-- C7, the code at a record whose fork parent cannot be fetched: the remote
`origin` is `me/fork`, its record is fetched and declares the fork parent
`up/stream`, whose `GetProject` fails; `BaseRepo(true)` then crashes, after the two
lookups and before any chooser or persistence call. -/
theorem baseRepo_fork_parent_fetch_fails :
    BaseRepo sampleLib parentFailsWorld (freshSt [sampleRemote "origin" "me" "fork" ""]) true
      = ({ rr := { baseOverride := none, remotes := [sampleRemote "origin" "me" "fork" ""],
                   network := some [sampleProject "me/fork" (some "up/stream")] },
           log := [Call.getProject "me/fork", Call.getProject "up/stream"] },
         .crash) := by
  decide

/-- C8: `resolveNetwork` returns a nil error, and whatever the fetches answer, it
leaves the override and the remotes as they are, looks up exactly the processed
remotes in order (the same ones in every world, so a failed fetch does not end
the walk) and extends the network cache by exactly the records of those of them
whose fetch succeeded, in the order of the remotes. -/
theorem resolveNetwork_extends (L : Lib) (W : World) (s : St) :
    (resolveNetwork L W s).2 = none ∧
      (resolveNetwork L W s).1.rr.baseOverride = s.rr.baseOverride ∧
      (resolveNetwork L W s).1.rr.remotes = s.rr.remotes ∧
      (resolveNetwork L W s).1.rr.network
        = extendNetwork s.rr.network
            (fetchedRecords L W s.log (processedRemotes s.rr.remotes)) ∧
      callsMade s (resolveNetwork L W s).1
        = (processedRemotes s.rr.remotes).map (lookupCall L) ∧
      ∀ W2 : World, callsMade s (resolveNetwork L W2 s).1
        = callsMade s (resolveNetwork L W s).1 := by
  have hc : ∀ W2 : World, callsMade s (resolveNetwork L W2 s).1
      = (processedRemotes s.rr.remotes).map (lookupCall L) := by
    intro W2
    rw [resolveNetwork_state]
    exact callsMade_append s _ _ rfl
  refine ⟨rfl, ?_, ?_, ?_, hc W, fun W2 => by rw [hc W2, hc W]⟩
  · rw [resolveNetwork_state]
  · rw [resolveNetwork_state]
  · rw [resolveNetwork_state]

/-- C9: in `BaseRepo`, when every fetch of a fork parent succeeds, so that the
records visited are `vs` (for each network record, in order, its fork parent if
it declares one and then the record itself), the candidate names `repoNames` are
the first-occurrence deduplication of the full names of `vs`; they have no
duplicate, the keys of `repoMap` are exactly these names, and every key maps to
the first visited record with that full name. -/
theorem candidates_dedup (L : Lib) (W : World) (s : St) (vs : List Project)
    (h : visitRecords W (s.rr.network.getD []) s.log = some vs) :
    ∃ c, candidates L W s = (s.log ++ parentCalls (s.rr.network.getD []), some c) ∧
      c.repoNames = dedupFirst (vs.map (fullNameOf L)) ∧
      c.repoNames.Nodup ∧
      (∀ k, (c.repoMap.lookup k).isSome = true ↔ k ∈ c.repoNames) ∧
      (∀ k, c.repoMap.lookup k = vs.find? (fun p => fullNameOf L p == k)) := by
  have hc0 : Cands.Consistent { repoNames := [], repoMap := [] } := rfl
  have hnames := foldl_add_names L vs { repoNames := [], repoMap := [] } hc0
  simp only [List.nil_append, List.not_mem_nil, not_false_eq_true, decide_True,
    List.filter_true] at hnames
  refine ⟨vs.foldl (add L) { repoNames := [], repoMap := [] }, ?_, hnames, ?_, ?_, ?_⟩
  · unfold candidates
    exact candLoop_of_visitRecords L W _ _ _ vs h
  · rw [hnames]; exact dedupFirst_nodup _
  · intro k
    rw [lookup_isSome_iff]
    rw [← foldl_add_consistent L vs _ hc0]
  · intro k
    rw [foldl_add_lookup L vs _ hc0 k]
    simp

/-- C9 at a network of `up/stream` and its fork `me/fork`: the parent is visited a
second time and kept once. -/
theorem candidates_dedup_witness :
    ∃ c, candidates sampleLib sampleWorld
          { rr := { baseOverride := none, remotes := [sampleRemote "origin" "me" "fork" ""],
                    network := some [sampleProject "up/stream" none,
                                     sampleProject "me/fork" (some "up/stream")] },
            log := [] }
        = ([] ++ parentCalls ((some [sampleProject "up/stream" none,
                                     sampleProject "me/fork" (some "up/stream")]).getD []),
           some c) ∧
      c.repoNames = dedupFirst (List.map (fullNameOf sampleLib)
        [sampleProject "up/stream" none, sampleProject "up/stream" none,
         sampleProject "me/fork" (some "up/stream")]) ∧
      c.repoNames.Nodup ∧
      (∀ k, (c.repoMap.lookup k).isSome = true ↔ k ∈ c.repoNames) ∧
      (∀ k, c.repoMap.lookup k
        = List.find? (fun p => fullNameOf sampleLib p == k)
            [sampleProject "up/stream" none, sampleProject "up/stream" none,
             sampleProject "me/fork" (some "up/stream")]) :=
  candidates_dedup sampleLib sampleWorld
    { rr := { baseOverride := none, remotes := [sampleRemote "origin" "me" "fork" ""],
              network := some [sampleProject "up/stream" none,
                               sampleProject "me/fork" (some "up/stream")] },
      log := [] }
    [sampleProject "up/stream" none, sampleProject "up/stream" none,
     sampleProject "me/fork" (some "up/stream")] (by decide)

/-- C10: `BaseRepo` asks the interactive chooser for the options `options` if and
only if there is no override, every remote's resolution is empty or starts with
`head:`, `prompt` is true and the candidates have more than one name, and then
`options` are these names in discovery order. When the candidates have exactly
one name, no chooser call is made, the name is a key of `repoMap`, every returned
reference is the one `FromFullName` parses from that record's clone URL, and it
is returned whenever that URL parses and there is a remote. -/
theorem baseRepo_chooser (L : Lib) (W : World) (s : St) (prompt : Bool) :
    (∀ options, Call.askOne options ∈ callsMade s (BaseRepo L W s prompt).1 ↔
        (s.rr.baseOverride = none ∧ (∀ x ∈ s.rr.remotes, noCachedBase x.Resolved) ∧
          prompt = true ∧
          ∃ c, (candidates L W (ensureNetwork L W s)).2 = some c ∧
            1 < c.repoNames.length ∧ options = c.repoNames)) ∧
    (∀ c n, s.rr.baseOverride = none → (∀ x ∈ s.rr.remotes, noCachedBase x.Resolved) →
        prompt = true → (candidates L W (ensureNetwork L W s)).2 = some c →
        c.repoNames = [n] →
        noAsk (callsMade s (BaseRepo L W s prompt).1) ∧
        ∃ p, c.repoMap.lookup n = some p ∧
          (∀ v e, (BaseRepo L W s prompt).2 = .ret v e →
            ∃ ref, L.FromFullName p.HTTPURLToRepo = .ok ref ∧ v = some ref) ∧
          (∀ ref, L.FromFullName p.HTTPURLToRepo = .ok ref → s.rr.remotes ≠ [] →
            ∃ e, (BaseRepo L W s prompt).2 = .ret (some ref) e)) := by
  have part1 : ∀ options, Call.askOne options ∈ callsMade s (BaseRepo L W s prompt).1 ↔
        (s.rr.baseOverride = none ∧ (∀ x ∈ s.rr.remotes, noCachedBase x.Resolved) ∧
          prompt = true ∧
          ∃ c, (candidates L W (ensureNetwork L W s)).2 = some c ∧
            1 < c.repoNames.length ∧ options = c.repoNames) := by
    intro options
    cases hov : s.rr.baseOverride with
    | some o =>
      rw [baseRepo_of_override L W s prompt o hov, callsMade_self]
      simp
    | none =>
      cases hcl : cachedLoop L s.rr.remotes s with
      | some res =>
        rw [baseRepo_of_cachedLoop L W s prompt res hov hcl]
        obtain ⟨cs, hlog, hno⟩ := cachedLoop_some_log L s _ res hcl
        constructor
        · intro h
          exact absurd rfl (callsMade_noAsk s res.1 cs hlog hno _ h options)
        · rintro ⟨_, hall, _⟩
          rw [cachedLoop_noCachedBase L s _ hall] at hcl
          cases hcl
      | none =>
        have hall := cachedLoop_none L s _ hcl
        cases prompt with
        | false =>
          rw [baseRepo_no_prompt_log L W s hov hcl, callsMade_self]
          simp
        | true =>
          rw [baseRepo_of_prompt L W s hov hcl]
          obtain ⟨cs0, hlog0, hno0⟩ := ensureNetwork_log L W s
          obtain ⟨cs, hlog, hiff⟩ := chooseBase_log L W (ensureNetwork L W s)
          rw [callsMade_append s _ (cs0 ++ cs) (by rw [hlog, hlog0, List.append_assoc])]
          rw [List.mem_append, ← hiff options]
          constructor
          · rintro (h | h)
            · exact absurd rfl (hno0 _ h options)
            · exact ⟨rfl, hall, rfl, h⟩
          · rintro ⟨_, _, _, h⟩
            exact Or.inr h
  refine ⟨part1, ?_⟩
  intro c n hov hall hp hc hn
  subst hp
  constructor
  · intro x hx options hxo
    subst hxo
    obtain ⟨_, _, _, c2, hc2, hlen, _⟩ := (part1 options).mp hx
    rw [hc] at hc2
    simp only [Option.some.injEq] at hc2
    subst hc2
    rw [hn] at hlen
    simp at hlen
  · have hcl := cachedLoop_noCachedBase L s _ hall
    rw [baseRepo_of_prompt L W s hov hcl, chooseBase_single L W _ c n hc hn]
    have hcons : c.Consistent := by
      cases hcand : candidates L W (ensureNetwork L W s) with
      | mk log oc =>
        rw [hcand] at hc
        simp only at hc
        subst hc
        have hc0 : Cands.Consistent { repoNames := [], repoMap := [] } := rfl
        exact candLoop_consistent L W _ _ _ hc0 log c hcand
    have hsome : (c.repoMap.lookup n).isSome = true := by
      rw [lookup_isSome_iff, ← hcons, hn]
      simp
    obtain ⟨p, hp⟩ := Option.isSome_iff_exists.mp hsome
    obtain ⟨_, hret, hok⟩ := persistChoice_cases L W
      { ensureNetwork L W s with log := (candidates L W (ensureNetwork L W s)).1 } c n
    refine ⟨p, hp, ?_, ?_⟩
    · intro v e h
      obtain ⟨p2, ref, hp2, hf, hv⟩ := hret v e h
      rw [hp] at hp2
      simp only [Option.some.injEq] at hp2
      subst hp2
      exact ⟨ref, hf, hv⟩
    · intro ref hf hne
      apply hok p ref hp hf
      simp only
      rw [ensureNetwork_remotes]
      exact hne

/-- C10 at the single remote `upstream`, whose record is the only candidate. -/
theorem baseRepo_chooser_witness :
    noAsk (callsMade (freshSt [sampleRemote "upstream" "up" "stream" ""])
        (BaseRepo sampleLib sampleWorld (freshSt [sampleRemote "upstream" "up" "stream" ""])
          true).1) ∧
      ∃ p, List.lookup "up/stream" [("up/stream", sampleProject "up/stream" none)] = some p ∧
        (∀ v e, (BaseRepo sampleLib sampleWorld
            (freshSt [sampleRemote "upstream" "up" "stream" ""]) true).2 = .ret v e →
          ∃ ref, sampleLib.FromFullName p.HTTPURLToRepo = .ok ref ∧ v = some ref) ∧
        (∀ ref, sampleLib.FromFullName p.HTTPURLToRepo = .ok ref →
          (freshSt [sampleRemote "upstream" "up" "stream" ""]).rr.remotes ≠ [] →
          ∃ e, (BaseRepo sampleLib sampleWorld
            (freshSt [sampleRemote "upstream" "up" "stream" ""]) true).2
              = .ret (some ref) e) :=
  (baseRepo_chooser sampleLib sampleWorld (freshSt [sampleRemote "upstream" "up" "stream" ""])
    true).2
    { repoNames := ["up/stream"], repoMap := [("up/stream", sampleProject "up/stream" none)] }
    "up/stream" rfl (by decide) rfl (by decide) rfl

/-- C16: for every remote sequence and every (non-nil) reference, `RemoteForRepo`
returns the first remote for which `IsSame` holds, with a nil error, when there
is one, and it returns a nil remote with the error `not found` if and only if
`IsSame` holds for no remote; the function only reads the remotes and returns
this pair. -/
theorem remoteForRepo_first (L : Lib) (r : ResolvedRemotes) (repo : Interface) :
    (∀ pre x post, r.remotes = pre ++ x :: post →
        (∀ y ∈ pre, L.IsSame (.remote y) repo = false) →
        L.IsSame (.remote x) repo = true →
        RemoteForRepo L r repo = (some x, none)) ∧
    ((∃ y ∈ r.remotes, L.IsSame (.remote y) repo = true) →
        ∃ pre x post, r.remotes = pre ++ x :: post ∧
          (∀ y ∈ pre, L.IsSame (.remote y) repo = false) ∧
          L.IsSame (.remote x) repo = true ∧
          RemoteForRepo L r repo = (some x, none)) ∧
    (RemoteForRepo L r repo = (none, some "not found") ↔
        ∀ y ∈ r.remotes, L.IsSame (.remote y) repo = false) ∧
    ((RemoteForRepo L r repo).1 = none ↔ (RemoteForRepo L r repo).2 = some "not found") := by
  refine ⟨?_, ?_, ?_, ?_⟩
  · intro pre x post hrem hpre hx
    apply remoteForRepo_of_find_some
    rw [hrem]
    exact findRemote_first L repo pre post x hpre hx
  · rintro ⟨y, hy, hsame⟩
    cases hf : findRemote L repo r.remotes with
    | none =>
      have := (findRemote_none_iff L repo r.remotes).mp hf y hy
      rw [this] at hsame
      cases hsame
    | some x =>
      obtain ⟨pre, post, hl, hpre, hx⟩ := findRemote_some L repo _ x hf
      exact ⟨pre, x, post, hl, hpre, hx, remoteForRepo_of_find_some L r repo x hf⟩
  · rw [← findRemote_none_iff]
    constructor
    · intro h
      cases hf : findRemote L repo r.remotes with
      | none => rfl
      | some x =>
        rw [remoteForRepo_of_find_some L r repo x hf] at h
        cases h
    · exact remoteForRepo_of_find_none L r repo
  · cases hf : findRemote L repo r.remotes with
    | none => rw [remoteForRepo_of_find_none L r repo hf]; simp
    | some x => rw [remoteForRepo_of_find_some L r repo x hf]; simp

/-- C16 at two remotes of which the second is `gitlab.com/up/stream`: it is the one
found for that reference. -/
theorem remoteForRepo_first_witness :
    RemoteForRepo sampleLib
        { baseOverride := none,
          remotes := [sampleRemote "origin" "me" "fork" "", sampleRemote "upstream" "up" "stream" ""],
          network := none }
        (NewWithHost "up" "stream" "gitlab.com")
      = (some (sampleRemote "upstream" "up" "stream" ""), none) :=
  (remoteForRepo_first sampleLib
    { baseOverride := none,
      remotes := [sampleRemote "origin" "me" "fork" "", sampleRemote "upstream" "up" "stream" ""],
      network := none }
    (NewWithHost "up" "stream" "gitlab.com")).1
    [sampleRemote "origin" "me" "fork" ""] (sampleRemote "upstream" "up" "stream" "") []
    rfl (by decide) (by decide)

/-- C17 as stated fails in its second part: the first remote with a non-empty
resolution that is neither `head:`-prefixed nor `base` is the second one, its
reference part `bad` is rejected by `FromFullName`, yet `BaseRepo` returns the
first remote, which is tagged `base`, with a nil error. -/
theorem baseRepo_parse_error_after_base :
    (sampleRemote "origin" "me" "fork" "base").Resolved = "base" ∧
    (sampleRemote "upstream" "up" "stream" "base:bad").Resolved ≠ "" ∧
    HasPrefix (sampleRemote "upstream" "up" "stream" "base:bad").Resolved "head:" = false ∧
    (sampleRemote "upstream" "up" "stream" "base:bad").Resolved ≠ "base" ∧
    sampleLib.FromFullName
        (TrimPrefix (sampleRemote "upstream" "up" "stream" "base:bad").Resolved "base:")
      = .error "expected the OWNER/REPO format" ∧
    (BaseRepo sampleLib sampleWorld
        (freshSt [sampleRemote "origin" "me" "fork" "base",
                  sampleRemote "upstream" "up" "stream" "base:bad"]) true).2
      = .ret (some (.remote (sampleRemote "origin" "me" "fork" "base"))) none := by
  refine ⟨rfl, by decide, by decide, by decide, rfl, by decide⟩

/-- C17, amended: (1) `ResolveRemotesToRepos` returns a non-nil error if and only
if `base` is non-empty and `FromFullName(base)` fails, the error is then that
parse error, and with `base` empty the result has no override; (2) in `BaseRepo`
with no override, when every remote before `R` has an empty or `head:`-prefixed
resolution and `R` carries a non-empty resolution that is neither
`head:`-prefixed nor `base` and whose reference part (the resolution without
the prefix `base:`, if it has it) `FromFullName` rejects, `BaseRepo` returns a nil
reference with that parse error, whatever the later remotes are, and makes no
external call. -/
theorem parse_errors_surface (L : Lib) (W : World) :
    (∀ remotes base,
        ((ResolveRemotesToRepos L remotes base).2 ≠ none ↔
          (base ≠ "" ∧ ∃ err, L.FromFullName base = .error err)) ∧
        (∀ err, base ≠ "" → L.FromFullName base = .error err →
          (ResolveRemotesToRepos L remotes base).2 = some err) ∧
        (base = "" → (ResolveRemotesToRepos L remotes base).1.baseOverride = none)) ∧
    (∀ (s : St) (prompt : Bool) (pre post : List Remote) (R : Remote) (err : Err),
        s.rr.baseOverride = none →
        s.rr.remotes = pre ++ R :: post →
        (∀ x ∈ pre, noCachedBase x.Resolved) →
        R.Resolved ≠ "" → HasPrefix R.Resolved "head:" = false → R.Resolved ≠ "base" →
        L.FromFullName (TrimPrefix R.Resolved "base:") = .error err →
        BaseRepo L W s prompt = (s, .ret none (some err)) ∧
          callsMade s (BaseRepo L W s prompt).1 = []) := by
  constructor
  · intro remotes base
    unfold ResolveRemotesToRepos
    by_cases hb : base = ""
    · simp [hb]
    · simp only [ne_eq, hb, not_false_eq_true, if_true, true_and]
      cases hf : L.FromFullName base with
      | error e => simp
      | ok o => simp
  · intro s prompt pre post R err hov hrem hpre hne hnh hnb hparse
    have e : BaseRepo L W s prompt = (s, .ret none (some err)) := by
      apply baseRepo_first_cached L W s prompt pre post R _ hov hrem hpre
      unfold cachedStep
      rw [if_neg hnb]
      by_cases h2 : HasPrefix R.Resolved "base:" = true
      · rw [if_pos h2, hparse]
      · rw [if_neg h2]
        have h2f : HasPrefix R.Resolved "base:" = false := by simpa using h2
        rw [trimPrefix_of_not_hasPrefix _ _ h2f] at hparse
        simp [hne, hnh, hparse]
    rw [e]
    exact ⟨rfl, callsMade_self s⟩

/-- C17, amended, at a remote tagged `base:bad` after a remote tagged
`head:me/fork`. -/
theorem parse_errors_surface_witness :
    BaseRepo sampleLib sampleWorld
        (freshSt [sampleRemote "origin" "me" "fork" "head:me/fork",
                  sampleRemote "upstream" "up" "stream" "base:bad",
                  sampleRemote "other" "x" "y" "base"]) true
      = (freshSt [sampleRemote "origin" "me" "fork" "head:me/fork",
                  sampleRemote "upstream" "up" "stream" "base:bad",
                  sampleRemote "other" "x" "y" "base"],
         .ret none (some "expected the OWNER/REPO format")) :=
  ((parse_errors_surface sampleLib sampleWorld).2 _ true
    [sampleRemote "origin" "me" "fork" "head:me/fork"] [sampleRemote "other" "x" "y" "base"]
    (sampleRemote "upstream" "up" "stream" "base:bad") "expected the OWNER/REPO format"
    rfl rfl (by decide) (by decide) (by decide) (by decide) rfl).1

/-- C18: the number of remotes `resolveNetwork` looks up is decided by the total
number of remotes: with exactly `maxRemotesForLookup` (5) remotes it calls
`GetProject` for the first remote only, and with any other number of remotes it
calls `GetProject` once for each remote, in order. -/
theorem resolveNetwork_lookup_count (L : Lib) (W : World) (s : St) :
    (s.rr.remotes.length = maxRemotesForLookup →
        ∃ first rest, s.rr.remotes = first :: rest ∧
          callsMade s (resolveNetwork L W s).1 = [Call.getProject (L.FullName first)]) ∧
    (s.rr.remotes.length ≠ maxRemotesForLookup →
        callsMade s (resolveNetwork L W s).1
          = s.rr.remotes.map (fun r => Call.getProject (L.FullName r))) := by
  constructor
  · intro h
    cases hl : s.rr.remotes with
    | nil => rw [hl] at h; exact absurd h (by decide)
    | cons first rest =>
      refine ⟨first, rest, rfl, ?_⟩
      rw [resolveNetwork_state]
      apply callsMade_append
      rw [hl] at h
      rw [hl, processedRemotes_of_eq first rest h]
      rfl
  · intro h
    rw [resolveNetwork_state]
    apply callsMade_append
    rw [processedRemotes_of_ne _ h]
    rfl

/-- C18 at five remotes: only the first is looked up. -/
theorem resolveNetwork_lookup_count_witness :
    ∃ first rest, (freshSt fiveRemotes).rr.remotes = first :: rest ∧
      callsMade (freshSt fiveRemotes) (resolveNetwork sampleLib failingWorld (freshSt fiveRemotes)).1
        = [Call.getProject (sampleLib.FullName first)] :=
  (resolveNetwork_lookup_count sampleLib failingWorld (freshSt fiveRemotes)).1 (by decide)

/-- C19: with no override, the outcome of `BaseRepo` is decided by the first remote
`R` whose resolution is non-empty and not `head:`-prefixed: on two remote
sequences that agree up to and including `R`, whatever comes after `R`, whatever
the worlds and the values of `prompt` are, `BaseRepo` returns the same reference
or error and makes the same external calls (so the same `SetRemoteResolution`
calls). -/
theorem baseRepo_first_cached_decides (L : Lib) (W1 W2 : World) (s1 s2 : St)
    (prompt1 prompt2 : Bool) (pre post1 post2 : List Remote) (R : Remote)
    (hov1 : s1.rr.baseOverride = none) (hov2 : s2.rr.baseOverride = none)
    (hrem1 : s1.rr.remotes = pre ++ R :: post1)
    (hrem2 : s2.rr.remotes = pre ++ R :: post2)
    (hpre : ∀ x ∈ pre, noCachedBase x.Resolved)
    (hR : ¬ noCachedBase R.Resolved) :
    (BaseRepo L W1 s1 prompt1).2 = (BaseRepo L W2 s2 prompt2).2 ∧
      callsMade s1 (BaseRepo L W1 s1 prompt1).1 = callsMade s2 (BaseRepo L W2 s2 prompt2).1 := by
  obtain ⟨res0, h0⟩ := cachedStep_ne_none L R
    { rr := { baseOverride := none, remotes := [], network := none }, log := [] } hR
  have key : ∀ (W : World) (s : St) (prompt : Bool) (post : List Remote),
      s.rr.baseOverride = none → s.rr.remotes = pre ++ R :: post →
      BaseRepo L W s prompt = ({ s with log := s.log ++ res0.1.log }, res0.2) := by
    intro W s prompt post hov hrem
    apply baseRepo_first_cached L W s prompt pre post R _ hov hrem hpre
    rw [cachedStep_shift, h0]
    rfl
  rw [key W1 s1 prompt1 post1 hov1 hrem1, key W2 s2 prompt2 post2 hov2 hrem2]
  refine ⟨rfl, ?_⟩
  rw [callsMade_append s1 _ res0.1.log rfl, callsMade_append s2 _ res0.1.log rfl]

/-- C19 at two sequences that agree up to a remote with the legacy resolution
`foo/bar` and go on differently, the second with a remote tagged `base`. -/
theorem baseRepo_first_cached_decides_witness :
    (BaseRepo sampleLib sampleWorld
        (freshSt [sampleRemote "origin" "me" "fork" "", sampleRemote "upstream" "up" "stream" "foo/bar"])
        true).2
      = (BaseRepo sampleLib failingWorld
          (freshSt [sampleRemote "origin" "me" "fork" "", sampleRemote "upstream" "up" "stream" "foo/bar",
                    sampleRemote "other" "x" "y" "base"])
          false).2 :=
  (baseRepo_first_cached_decides sampleLib sampleWorld failingWorld
    (freshSt [sampleRemote "origin" "me" "fork" "", sampleRemote "upstream" "up" "stream" "foo/bar"])
    (freshSt [sampleRemote "origin" "me" "fork" "", sampleRemote "upstream" "up" "stream" "foo/bar",
              sampleRemote "other" "x" "y" "base"])
    true false [sampleRemote "origin" "me" "fork" ""] [] [sampleRemote "other" "x" "y" "base"]
    (sampleRemote "upstream" "up" "stream" "foo/bar") rfl rfl rfl rfl (by decide) (by decide)).1

/-- C11: whenever `BaseRepo(true)` selects a candidate `c` (the only one, or the one
the chooser answered) whose clone URL `FromFullName` parses to `ref`, it makes
exactly one `SetRemoteResolution` call, as its last external call: on the first
remote that `IsSame` identifies with `ref`, with the resolution `base`, if there
is such a remote, and otherwise on the first remote, with the resolution `base:`
followed by the full name of `c`. It returns `ref` together with the error of that
call, whether the call failed or not. -/
theorem baseRepo_persists_choice (L : Lib) (W : World) (s : St) (cands : Cands)
    (name : String) (c : Project) (ref : Interface)
    (hov : s.rr.baseOverride = none)
    (hall : ∀ x ∈ s.rr.remotes, noCachedBase x.Resolved)
    (hc : (candidates L W (ensureNetwork L W s)).2 = some cands)
    (hsel : selected L W (ensureNetwork L W s) cands name)
    (hlook : cands.repoMap.lookup name = some c)
    (hparse : L.FromFullName c.HTTPURLToRepo = .ok ref) :
    (∀ pre r post, s.rr.remotes = pre ++ r :: post →
        (∀ y ∈ pre, L.IsSame (.remote y) ref = false) →
        L.IsSame (.remote r) ref = true →
        ∃ before,
          (BaseRepo L W s true).1.log = before ++ [Call.setRemoteResolution r.Name "base"] ∧
          setCalls (callsMade s (BaseRepo L W s true).1)
            = [Call.setRemoteResolution r.Name "base"] ∧
          (BaseRepo L W s true).2
            = .ret (some ref) (W.SetRemoteResolution before r.Name "base")) ∧
    (∀ first rest, s.rr.remotes = first :: rest →
        (∀ y ∈ s.rr.remotes, L.IsSame (.remote y) ref = false) →
        ∃ before,
          (BaseRepo L W s true).1.log
            = before ++ [Call.setRemoteResolution first.Name ("base:" ++ fullNameOf L c)] ∧
          setCalls (callsMade s (BaseRepo L W s true).1)
            = [Call.setRemoteResolution first.Name ("base:" ++ fullNameOf L c)] ∧
          (BaseRepo L W s true).2
            = .ret (some ref)
                (W.SetRemoteResolution before first.Name ("base:" ++ fullNameOf L c))) := by
  obtain ⟨sSel, before, hrun, hrr, hlog, hset⟩ := baseRepo_selected L W s cands name hov hall hc hsel
  have hrem : sSel.rr.remotes = s.rr.remotes := by rw [hrr, ensureNetwork_remotes]
  constructor
  · intro pre r post hdec hpre hr
    have hfind : findRemote L ref sSel.rr.remotes = some r := by
      rw [hrem, hdec]; exact findRemote_first L ref pre post r hpre hr
    rw [hrun, persistChoice_matched L W sSel cands name c ref r hlook hparse hfind]
    refine ⟨sSel.log, rfl, ?_, rfl⟩
    rw [callsMade_append s _ (before ++ [Call.setRemoteResolution r.Name "base"])
      (by simp only [hlog, List.append_assoc])]
    rw [setCalls_append, hset]
    rfl
  · intro first rest hdec hnone
    have hfind : findRemote L ref sSel.rr.remotes = none := by
      rw [hrem]; exact (findRemote_none_iff L ref _).mpr hnone
    rw [hrun, persistChoice_remoteless L W sSel cands name c ref first rest hlook hparse hfind
      (by rw [hrem, hdec])]
    refine ⟨sSel.log, rfl, ?_, rfl⟩
    rw [callsMade_append s _
      (before ++ [Call.setRemoteResolution first.Name ("base:" ++ fullNameOf L c)])
      (by simp only [hlog, List.append_assoc])]
    rw [setCalls_append, hset]
    rfl

/-- C11 at the single remote `upstream` for `up/stream`, whose record is the only
candidate: the resolution `base` is persisted on `upstream`, and in a world where
that fails the error comes back with the reference. -/
theorem baseRepo_persists_choice_witness :
    ∃ before,
      (BaseRepo sampleLib sampleWorld (freshSt [sampleRemote "upstream" "up" "stream" ""])
          true).1.log
        = before ++ [Call.setRemoteResolution (sampleRemote "upstream" "up" "stream" "").Name
            "base"] ∧
      setCalls (callsMade (freshSt [sampleRemote "upstream" "up" "stream" ""])
          (BaseRepo sampleLib sampleWorld (freshSt [sampleRemote "upstream" "up" "stream" ""])
            true).1)
        = [Call.setRemoteResolution (sampleRemote "upstream" "up" "stream" "").Name "base"] ∧
      (BaseRepo sampleLib sampleWorld (freshSt [sampleRemote "upstream" "up" "stream" ""])
          true).2
        = .ret (some (NewWithHost "up" "stream" "gitlab.com"))
            (sampleWorld.SetRemoteResolution before
              (sampleRemote "upstream" "up" "stream" "").Name "base") :=
  (baseRepo_persists_choice sampleLib sampleWorld
    (freshSt [sampleRemote "upstream" "up" "stream" ""])
    { repoNames := ["up/stream"], repoMap := [("up/stream", sampleProject "up/stream" none)] }
    "up/stream" (sampleProject "up/stream" none) (NewWithHost "up" "stream" "gitlab.com")
    rfl (by decide) (by decide) (Or.inl rfl) rfl rfl).1
    [] (sampleRemote "upstream" "up" "stream" "") [] rfl (by decide) (by decide)

/-- C12 as stated fails: the only remote `origin` is `up/stream` on the host
`example.com`; `BaseRepo(true)` selects the record `up/stream`, returns the
reference on the host `gitlab.com` parsed from its clone URL, and persists
`base:up/stream` on `origin`, with success; on the same remote with that
resolution, `BaseRepo` returns the reference on the host `example.com`. -/
theorem baseRepo_round_trip_other_host :
    BaseRepo sampleLib sampleWorld (freshSt [otherHostRemote ""]) true
      = ({ rr := { baseOverride := none, remotes := [otherHostRemote ""],
                   network := some [sampleProject "up/stream" none] },
           log := [Call.getProject "up/stream",
                   Call.setRemoteResolution "origin" "base:up/stream"] },
         .ret (some (.repo { host := "gitlab.com", owner := "up", name := "stream" })) none) ∧
    (BaseRepo sampleLib sampleWorld (freshSt [otherHostRemote "base:up/stream"]) true).2
      = .ret (some (.repo { host := "example.com", owner := "up", name := "stream" })) none ∧
    Interface.RepoHost (.repo { host := "example.com", owner := "up", name := "stream" })
      ≠ Interface.RepoHost (.repo { host := "gitlab.com", owner := "up", name := "stream" }) := by
  refine ⟨by decide, by decide, by decide⟩

/-- C12, amended: when `BaseRepo(true)`, with no override and no cached base
resolution, selects a candidate `c` whose clone URL parses to `ref`, it persists
one resolution, and `BaseRepo` (either `prompt`, any world, any network cache) on
the same remotes with that resolution set on that remote makes no external call
and returns: (a) for the resolution `base`, persisted on the first remote `r`
that `IsSame` identifies with `ref`, the remote `r` itself; (b) for the
resolution `base:` followed by the full name of `c`, persisted on the first
remote when `IsSame` identifies no remote with `ref`, and when `FromFullName`
parses that full name to `ref2`, the reference with the owner and the name of
`ref2` and the host of the first remote. -/
theorem baseRepo_round_trip (L : Lib) (W W2 : World) (s s2 : St) (prompt2 : Bool)
    (cands : Cands) (name : String) (c : Project) (ref : Interface)
    (hov : s.rr.baseOverride = none)
    (hall : ∀ x ∈ s.rr.remotes, noCachedBase x.Resolved)
    (hc : (candidates L W (ensureNetwork L W s)).2 = some cands)
    (hsel : selected L W (ensureNetwork L W s) cands name)
    (hlook : cands.repoMap.lookup name = some c)
    (hparse : L.FromFullName c.HTTPURLToRepo = .ok ref)
    (hov2 : s2.rr.baseOverride = none) :
    (∀ pre r post, s.rr.remotes = pre ++ r :: post →
        (∀ y ∈ pre, L.IsSame (.remote y) ref = false) →
        L.IsSame (.remote r) ref = true →
        s2.rr.remotes = retag r "base" s.rr.remotes →
        setCalls (callsMade s (BaseRepo L W s true).1)
            = [Call.setRemoteResolution r.Name "base"] ∧
          BaseRepo L W2 s2 prompt2
            = (s2, .ret (some (.remote { r with Resolved := "base" })) none) ∧
          callsMade s2 (BaseRepo L W2 s2 prompt2).1 = []) ∧
    (∀ first rest ref2, s.rr.remotes = first :: rest →
        (∀ y ∈ s.rr.remotes, L.IsSame (.remote y) ref = false) →
        L.FromFullName (fullNameOf L c) = .ok ref2 →
        s2.rr.remotes = retag first ("base:" ++ fullNameOf L c) s.rr.remotes →
        setCalls (callsMade s (BaseRepo L W s true).1)
            = [Call.setRemoteResolution first.Name ("base:" ++ fullNameOf L c)] ∧
          BaseRepo L W2 s2 prompt2
            = (s2, .ret (some (.repo { host := first.Repo.host, owner := ref2.RepoOwner,
                                       name := ref2.RepoName })) none) ∧
          callsMade s2 (BaseRepo L W2 s2 prompt2).1 = []) := by
  obtain ⟨sSel, before, hrun, hrr, hlog, hset⟩ := baseRepo_selected L W s cands name hov hall hc hsel
  have hrem : sSel.rr.remotes = s.rr.remotes := by rw [hrr, ensureNetwork_remotes]
  constructor
  · intro pre r post hdec hpre hr hrem2
    refine ⟨?_, ?_⟩
    · have hfind : findRemote L ref sSel.rr.remotes = some r := by
        rw [hrem, hdec]; exact findRemote_first L ref pre post r hpre hr
      rw [hrun, persistChoice_matched L W sSel cands name c ref r hlook hparse hfind]
      rw [callsMade_append s _ (before ++ [Call.setRemoteResolution r.Name "base"])
        (by simp only [hlog, List.append_assoc])]
      rw [setCalls_append, hset]
      rfl
    · have hne : ∀ y ∈ pre, y ≠ r := by
        intro y hy e
        have := hpre y hy
        rw [e, hr] at this
        cases this
      have hpre2 : ∀ y ∈ pre, noCachedBase y.Resolved := by
        intro y hy
        apply hall y
        rw [hdec]
        exact List.mem_append_left _ hy
      rw [hdec, retag_split r "base" pre post hne] at hrem2
      have e : BaseRepo L W2 s2 prompt2
          = (s2, .ret (some (.remote { r with Resolved := "base" })) none) :=
        baseRepo_first_cached L W2 s2 prompt2 pre _ _ _ hov2 hrem2 hpre2
          (cachedStep_base L _ s2 rfl)
      rw [e]
      exact ⟨rfl, callsMade_self s2⟩
  · intro first rest ref2 hdec hnone hparse2 hrem2
    refine ⟨?_, ?_⟩
    · have hfind : findRemote L ref sSel.rr.remotes = none := by
        rw [hrem]; exact (findRemote_none_iff L ref _).mpr hnone
      rw [hrun, persistChoice_remoteless L W sSel cands name c ref first rest hlook hparse
        hfind (by rw [hrem, hdec])]
      rw [callsMade_append s _
        (before ++ [Call.setRemoteResolution first.Name ("base:" ++ fullNameOf L c)])
        (by simp only [hlog, List.append_assoc])]
      rw [setCalls_append, hset]
      rfl
    · have hsplit := retag_split first ("base:" ++ fullNameOf L c) [] rest (by simp)
      simp only [List.nil_append] at hsplit
      rw [hdec, hsplit] at hrem2
      have e : BaseRepo L W2 s2 prompt2
          = (s2, .ret (some (.repo { host := first.Repo.host, owner := ref2.RepoOwner,
                                     name := ref2.RepoName })) none) := by
        apply baseRepo_first_cached L W2 s2 prompt2 [] _ _ _ hov2 hrem2 (by simp)
        rw [cachedStep_base_colon L _ s2 (fullNameOf L c) rfl, hparse2]
        rfl
      rw [e]
      exact ⟨rfl, callsMade_self s2⟩

/-- C12, amended, at the single remote `upstream` for `up/stream`: `base` is
persisted on it, and with that resolution `BaseRepo` returns the remote without
any call, also in a world where every call fails. -/
theorem baseRepo_round_trip_witness :
    setCalls (callsMade (freshSt [sampleRemote "upstream" "up" "stream" ""])
        (BaseRepo sampleLib sampleWorld (freshSt [sampleRemote "upstream" "up" "stream" ""])
          true).1)
      = [Call.setRemoteResolution (sampleRemote "upstream" "up" "stream" "").Name "base"] ∧
    BaseRepo sampleLib failingWorld (freshSt [sampleRemote "upstream" "up" "stream" "base"]) false
      = (freshSt [sampleRemote "upstream" "up" "stream" "base"],
         .ret (some (.remote { sampleRemote "upstream" "up" "stream" "" with
                               Resolved := "base" })) none) ∧
    callsMade (freshSt [sampleRemote "upstream" "up" "stream" "base"])
      (BaseRepo sampleLib failingWorld (freshSt [sampleRemote "upstream" "up" "stream" "base"])
        false).1 = [] :=
  (baseRepo_round_trip sampleLib sampleWorld failingWorld
    (freshSt [sampleRemote "upstream" "up" "stream" ""])
    (freshSt [sampleRemote "upstream" "up" "stream" "base"]) false
    { repoNames := ["up/stream"], repoMap := [("up/stream", sampleProject "up/stream" none)] }
    "up/stream" (sampleProject "up/stream" none) (NewWithHost "up" "stream" "gitlab.com")
    rfl (by decide) (by decide) (Or.inl rfl) rfl rfl rfl).1
    [] (sampleRemote "upstream" "up" "stream" "") [] rfl (by decide) (by decide) (by decide)

/-- C20: the access `r.remotes[0]` of `BaseRepo` is in range exactly when there is a
remote. With a first remote (no override, no cached base resolution) its three
uses succeed: `BaseRepo(false)` returns the first remote; `BaseRepo(true)` with no
candidate returns the first remote; `BaseRepo(true)` with a selected candidate
that `IsSame` identifies with no remote persists on the first remote and
returns. With no remote and no override, `BaseRepo(false)` crashes, and
`BaseRepo(true)` crashes whenever the candidates are empty, which they are on an
instance whose network is nil. -/
theorem remotes_first_in_range (L : Lib) (W : World) (s : St)
    (hov : s.rr.baseOverride = none) :
    (∀ first rest, s.rr.remotes = first :: rest →
        (∀ x ∈ s.rr.remotes, noCachedBase x.Resolved) →
        (BaseRepo L W s false).2 = .ret (some (.remote first)) none ∧
        (∀ cands, (candidates L W (ensureNetwork L W s)).2 = some cands →
          cands.repoNames = [] →
          (BaseRepo L W s true).2 = .ret (some (.remote first)) none) ∧
        (∀ cands name c ref, (candidates L W (ensureNetwork L W s)).2 = some cands →
          selected L W (ensureNetwork L W s) cands name →
          cands.repoMap.lookup name = some c →
          L.FromFullName c.HTTPURLToRepo = .ok ref →
          (∀ y ∈ s.rr.remotes, L.IsSame (.remote y) ref = false) →
          ∃ err, (BaseRepo L W s true).2 = .ret (some ref) err ∧
            setCalls (callsMade s (BaseRepo L W s true).1)
              = [Call.setRemoteResolution first.Name ("base:" ++ fullNameOf L c)])) ∧
    (s.rr.remotes = [] →
        (BaseRepo L W s false).2 = .crash ∧
        (∀ cands, (candidates L W (ensureNetwork L W s)).2 = some cands →
          cands.repoNames = [] → (BaseRepo L W s true).2 = .crash) ∧
        (s.rr.network = none → (BaseRepo L W s true).2 = .crash)) := by
  have hzero : ∀ cands, (∀ x ∈ s.rr.remotes, noCachedBase x.Resolved) →
      (candidates L W (ensureNetwork L W s)).2 = some cands → cands.repoNames = [] →
      (BaseRepo L W s true).2
        = match s.rr.remotes with
          | [] => .crash
          | first :: _ => .ret (some (.remote first)) none := by
    intro cands hall hc hn
    rw [baseRepo_of_prompt L W s hov (cachedLoop_noCachedBase L s _ hall),
      chooseBase_zero L W _ cands hc hn, ensureNetwork_remotes]
  constructor
  · intro first rest hrem hall
    have hcl := cachedLoop_noCachedBase L s _ hall
    refine ⟨?_, ?_, ?_⟩
    · unfold BaseRepo
      rw [hov]
      simp only [hcl]
      rw [hrem]
      rfl
    · intro cands hc hn
      rw [hzero cands hall hc hn, hrem]
    · intro cands name c ref hc hsel hlook hparse hnone
      obtain ⟨sSel, before, hrun, hrr, hlog, hset⟩ :=
        baseRepo_selected L W s cands name hov hall hc hsel
      have hrem2 : sSel.rr.remotes = s.rr.remotes := by rw [hrr, ensureNetwork_remotes]
      have hfind : findRemote L ref sSel.rr.remotes = none := by
        rw [hrem2]; exact (findRemote_none_iff L ref _).mpr hnone
      rw [hrun, persistChoice_remoteless L W sSel cands name c ref first rest hlook hparse
        hfind (by rw [hrem2, hrem])]
      refine ⟨_, rfl, ?_⟩
      rw [callsMade_append s _
        (before ++ [Call.setRemoteResolution first.Name ("base:" ++ fullNameOf L c)])
        (by simp only [hlog, List.append_assoc])]
      rw [setCalls_append, hset]
      rfl
  · intro hrem
    have hall : ∀ x ∈ s.rr.remotes, noCachedBase x.Resolved := by
      rw [hrem]; intro x hx; cases hx
    have hcl := cachedLoop_noCachedBase L s _ hall
    refine ⟨?_, ?_, ?_⟩
    · unfold BaseRepo
      rw [hov]
      simp only [hcl]
      rw [hrem]
      rfl
    · intro cands hc hn
      rw [hzero cands hall hc hn, hrem]
    · intro hnet
      have hens := ensureNetwork_no_remotes L W s hrem hnet
      have hcand := candidates_of_no_network L W s (by rw [hnet]; rfl)
      have := hzero { repoNames := [], repoMap := [] } hall (by rw [hens, hcand]) rfl
      rw [this, hrem]

/-- C20 at a fresh instance without remotes: `BaseRepo(false)` crashes. -/
theorem remotes_first_in_range_witness :
    (BaseRepo sampleLib sampleWorld (freshSt []) false).2 = .crash ∧
    (∀ cands, (candidates sampleLib sampleWorld
          (ensureNetwork sampleLib sampleWorld (freshSt []))).2 = some cands →
        cands.repoNames = [] →
        (BaseRepo sampleLib sampleWorld (freshSt []) true).2 = .crash) ∧
    ((freshSt []).rr.network = none →
        (BaseRepo sampleLib sampleWorld (freshSt []) true).2 = .crash) :=
  (remotes_first_in_range sampleLib sampleWorld (freshSt []) rfl).2 rfl

/-- C13 as stated fails: on a fresh instance with the remote `origin`, in a world
where every `GetProject` fails, the first `BaseRepo(true)` populates nothing and
leaves the network nil; a second `BaseRepo(true)` and a later `HeadRepos` on the
instance each call `GetProject` for `origin` again. -/
theorem population_retried_after_failure :
    (BaseRepo sampleLib failingWorld (freshSt [sampleRemote "origin" "me" "fork" ""]) true).1
      = { rr := { baseOverride := none, remotes := [sampleRemote "origin" "me" "fork" ""],
                  network := none },
          log := [Call.getProject "me/fork"] } ∧
    callsMade
        (BaseRepo sampleLib failingWorld (freshSt [sampleRemote "origin" "me" "fork" ""]) true).1
        (BaseRepo sampleLib failingWorld
          (BaseRepo sampleLib failingWorld (freshSt [sampleRemote "origin" "me" "fork" ""])
            true).1 true).1
      = [Call.getProject "me/fork"] ∧
    callsMade
        (BaseRepo sampleLib failingWorld (freshSt [sampleRemote "origin" "me" "fork" ""]) true).1
        (HeadRepos sampleLib failingWorld
          (BaseRepo sampleLib failingWorld (freshSt [sampleRemote "origin" "me" "fork" ""])
            true).1).1
      = [Call.getProject "me/fork"] := by
  refine ⟨by decide, by decide, by decide⟩

/-- C13, amended: if the population of the network on an instance whose network is
nil yields zero records, the network stays nil, and on the instance in that
state, in any world, every later call of `HeadRepos`, and every later call of
`BaseRepo(true)` with no override and no cached base resolution, runs the
population again: its external calls begin with one `GetProject` call for each
processed remote. -/
theorem population_retried (L : Lib) (W : World) (s : St)
    (hnet : s.rr.network = none)
    (hzero : fetchedRecords L W s.log (processedRemotes s.rr.remotes) = []) :
    (resolveNetwork L W s).1.rr.network = none ∧
    (HeadRepos L W s).1.rr.network = none ∧
    ∀ (W2 : World) (s2 : St), s2.rr = (HeadRepos L W s).1.rr →
      callsMade s2 (HeadRepos L W2 s2).1 = (processedRemotes s.rr.remotes).map (lookupCall L) ∧
      (s2.rr.baseOverride = none → (∀ x ∈ s2.rr.remotes, noCachedBase x.Resolved) →
        ∃ cs, callsMade s2 (BaseRepo L W2 s2 true).1
          = (processedRemotes s.rr.remotes).map (lookupCall L) ++ cs) := by
  have h1 : (resolveNetwork L W s).1.rr.network = none := by
    rw [resolveNetwork_state, hzero, hnet]
    rfl
  have h2 : (HeadRepos L W s).1.rr.network = none := by
    rw [headRepos_state, ensureNetwork_network, if_pos hnet, hzero]
    rfl
  refine ⟨h1, h2, ?_⟩
  intro W2 s2 hrr
  have hnet2 : s2.rr.network = none := by rw [hrr]; exact h2
  have hrem2 : s2.rr.remotes = s.rr.remotes := by
    rw [hrr, headRepos_state, ensureNetwork_remotes]
  have hlog2 : (ensureNetwork L W2 s2).log
      = s2.log ++ (processedRemotes s.rr.remotes).map (lookupCall L) := by
    rw [ensureNetwork_log_eq, if_pos hnet2, hrem2]
  constructor
  · rw [headRepos_state]
    exact callsMade_append s2 _ _ hlog2
  · intro hov hall
    rw [baseRepo_of_prompt L W2 s2 hov (cachedLoop_noCachedBase L s2 _ hall)]
    obtain ⟨cs, hlog, _⟩ := chooseBase_log L W2 (ensureNetwork L W2 s2)
    refine ⟨cs, ?_⟩
    apply callsMade_append
    rw [hlog, hlog2, List.append_assoc]

/-- C13, amended, at a fresh instance with the remote `origin` in a world where
every `GetProject` fails: a later `HeadRepos` looks `origin` up again. -/
theorem population_retried_witness :
    callsMade (freshSt [sampleRemote "origin" "me" "fork" ""])
        (HeadRepos sampleLib failingWorld (freshSt [sampleRemote "origin" "me" "fork" ""])).1
      = (processedRemotes (freshSt [sampleRemote "origin" "me" "fork" ""]).rr.remotes).map
          (lookupCall sampleLib) :=
  ((population_retried sampleLib failingWorld (freshSt [sampleRemote "origin" "me" "fork" ""])
    rfl (by decide)).2.2 failingWorld (freshSt [sampleRemote "origin" "me" "fork" ""])
    (by decide)).1

/-- C14 as stated fails: on an instance whose network holds the record `me/fork`,
which declares the fork parent `up/stream`, `BaseRepo(true)` calls `GetProject`
for `up/stream`. -/
theorem baseRepo_looks_up_fork_parent_again :
    lookupCalls (callsMade
        { rr := { baseOverride := none, remotes := [sampleRemote "origin" "me" "fork" ""],
                  network := some [sampleProject "me/fork" (some "up/stream")] },
          log := [] }
        (BaseRepo sampleLib sampleWorld
          { rr := { baseOverride := none, remotes := [sampleRemote "origin" "me" "fork" ""],
                    network := some [sampleProject "me/fork" (some "up/stream")] },
            log := [] } true).1)
      = [Call.getProject "up/stream"] := by
  decide

/-- C14, amended: on an instance whose network already holds at least one record,
`HeadRepos` makes no external call and leaves the instance unchanged, and
`BaseRepo` (either `prompt`) leaves the instance, so the network, unchanged and
makes no `GetProject` call for a remote: its `GetProject` calls are lookups of
the fork parents of the network records, in the order of the records. -/
theorem network_memoized (L : Lib) (W : World) (s : St) (p : Project) (ps : List Project)
    (hnet : s.rr.network = some (p :: ps)) :
    (HeadRepos L W s).1 = s ∧
    callsMade s (HeadRepos L W s).1 = [] ∧
    ∀ prompt, (BaseRepo L W s prompt).1.rr = s.rr ∧
      lookupCalls (callsMade s (BaseRepo L W s prompt).1) <+: parentCalls (p :: ps) := by
  have hne : s.rr.network ≠ none := by rw [hnet]; exact Option.some_ne_none _
  have hh : (HeadRepos L W s).1 = s := by
    rw [headRepos_state, ensureNetwork_of_some L W s hne]
  refine ⟨hh, by rw [hh]; exact callsMade_self s, ?_⟩
  intro prompt
  obtain ⟨cs, hst, hpre⟩ := baseRepo_state_of_network L W s prompt hne
  rw [hst]
  refine ⟨rfl, ?_⟩
  rw [callsMade_append s _ cs rfl]
  rw [hnet] at hpre
  exact hpre

/-- C14, amended, at an instance whose network holds the record `up/stream`: a
further `HeadRepos` makes no call, also in a world where every call fails. -/
theorem network_memoized_witness :
    callsMade
        { rr := { baseOverride := none, remotes := [sampleRemote "upstream" "up" "stream" ""],
                  network := some [sampleProject "up/stream" none] },
          log := [Call.getProject "up/stream"] }
        (HeadRepos sampleLib failingWorld
          { rr := { baseOverride := none, remotes := [sampleRemote "upstream" "up" "stream" ""],
                    network := some [sampleProject "up/stream" none] },
            log := [Call.getProject "up/stream"] }).1
      = [] :=
  (network_memoized sampleLib failingWorld
    { rr := { baseOverride := none, remotes := [sampleRemote "upstream" "up" "stream" ""],
              network := some [sampleProject "up/stream" none] },
      log := [Call.getProject "up/stream"] }
    (sampleProject "up/stream" none) [] rfl).2.1

/-- C15, the code at two remotes `origin` (`me/fork`) and `upstream` (`up/stream`):
the network holds the records `me/fork` and `up/stream`, in this order, and both
pointers `HeadRepos` returns refer to the record `up/stream`, the last value of
the loop variable. -/
theorem headRepos_two_records :
    (HeadRepos sampleLib sampleWorld
        (freshSt [sampleRemote "origin" "me" "fork" "",
                  sampleRemote "upstream" "up" "stream" ""])).1.rr.network
      = some [sampleProject "me/fork" (some "up/stream"), sampleProject "up/stream" none] ∧
    (HeadRepos sampleLib sampleWorld
        (freshSt [sampleRemote "origin" "me" "fork" "",
                  sampleRemote "upstream" "up" "stream" ""])).2
      = ([sampleProject "up/stream" none, sampleProject "up/stream" none], none) := by
  refine ⟨by decide, by decide⟩

end Glrepo
